import Mathlib

/-!
Shallow embedding of the core of `src/dvdbackup.c` (dvdbackup): the block
copier, the gap plan and gap refresher, the 1 GiB VOB splitter, the chapter
cell sorter/aligner and the feature guesser, together with theorems that
check the natural-language specification's claims against this embedding.

Conventions of the embedding:
* a DVD logical block is a list of byte values (`Block`), of length 2048
  for well-formed discs and files;
* an output file is a list of byte values; `pwrite`/`write` become pure
  list operations, `pread` of an existing regular file returns the bytes
  available at the requested offset;
* `DVDReadBlocks` is split into a result oracle `got : Nat -> Nat -> Int`
  (absolute block offset and requested count to returned count) and the
  disc content `disc : Nat -> Block`;
* C `size_t`/`int` arithmetic on block counts stays within `Nat`/`Int`
  ranges in every reachable state, so `Nat` (with truncated subtraction
  mirroring the C guards) and `Int` are used directly.
-/

namespace Dvdbackup

/-- `DVD_VIDEO_LB_LEN`: size of a DVD logical block in bytes. -/
def DVD_VIDEO_LB_LEN : Nat := 2048

/-- `BUFFER_SIZE`: the read buffer size in DVD logical blocks (1 MiB). -/
def BUFFER_SIZE : Nat := 512

/-- `MAX_VOB_SIZE`: the maximum size of a VOB file in logical blocks (1 GiB). -/
def MAX_VOB_SIZE : Nat := 524288

/-- `GAP_SAMPLE_TARGET`: number of verification samples collected with --gaps. -/
def GAP_SAMPLE_TARGET : Nat := 32

/-- A logical block's bytes. -/
abbrev Block := List Nat

/-- `buffer_is_blank`: 1 iff every byte of the buffer is 0x00. -/
def buffer_is_blank (buffer : List Nat) : Bool :=
  buffer.all (fun x => x == 0)

/-- A zero-filled 2048-byte block, as written by the padding paths. -/
def zeroBlock : Block := List.replicate DVD_VIDEO_LB_LEN 0

/-- `gap_range_t`: one range of the gap plan. -/
structure gap_range_t where
  start_block : Nat
  block_count : Nat
deriving Repr, DecidableEq

/-- A `gap_plan_t` is its `ranges` array, in order. -/
abbrev gap_plan_t := List gap_range_t

/-- `gap_plan_add`: append a range to the plan, coalescing with the last
range when the new start falls within or at the end of it; a zero count is
a no-op.  (The `realloc` growth of the C array is not observable here.) -/
def gap_plan_add (plan : gap_plan_t) (start count : Nat) : gap_plan_t :=
  if count = 0 then plan
  else
    match plan.getLast? with
    | some last =>
        let last_end := last.start_block + last.block_count
        if start ≤ last_end then
          let new_end := start + count
          if new_end > last_end then
            plan.dropLast ++ [⟨last.start_block, new_end - last.start_block⟩]
          else plan
        else plan ++ [⟨start, count⟩]
    | none => plan ++ [⟨start, count⟩]

/-- `gap_plan_contains`: does `block` lie in some range?  The loop exploits
the sorted invariant and stops early at the first range starting past
`block`. -/
def gap_plan_contains : gap_plan_t → Nat → Bool
  | [], _ => false
  | range :: rest, block =>
      if block < range.start_block then false
      else if block < range.start_block + range.block_count then true
      else gap_plan_contains rest block

/-- The ordered-disjoint invariant of a gap plan: every earlier range ends
strictly before every later range starts (no overlap and no adjacency). -/
def gap_plan_ordered (plan : gap_plan_t) : Prop :=
  List.Pairwise (fun a b => a.start_block + a.block_count < b.start_block) plan

instance : DecidablePred gap_plan_ordered := fun plan =>
  inferInstanceAs (Decidable (List.Pairwise _ plan))

/-- Building a plan by a sequence of `gap_plan_add` insertions from the
empty plan. -/
def gap_plan_build (inserts : List (Nat × Nat)) : gap_plan_t :=
  inserts.foldl (fun p sc => gap_plan_add p sc.1 sc.2) []

/-! ## Scanning an existing file for gaps -/

/-- The bytes of block `i` of a file (2048 bytes starting at `i * 2048`). -/
def blockBytes (file : List Nat) (i : Nat) : List Nat :=
  (file.drop (i * DVD_VIDEO_LB_LEN)).take DVD_VIDEO_LB_LEN

/-- Block `i` of a file is blank. -/
def blockBlank (file : List Nat) (i : Nat) : Bool :=
  buffer_is_blank (blockBytes file i)

/-- The per-block walk of `scan_existing_file_for_gaps`.  `pread` of a
regular file returns the full chunk for offsets below the scanned length,
so the 512-block chunking of the C loop is not observable and the walk is
per block: `pending` is the start of the currently open blank run
(`pending_start`, with `none` for `SIZE_MAX`). -/
def scan_loop (blank : Nat → Bool) (scan_blocks idx : Nat)
    (plan : gap_plan_t) (blank_blocks : Nat) (pending : Option Nat) :
    gap_plan_t × Nat :=
  if h : idx < scan_blocks then
    if blank idx then
      scan_loop blank scan_blocks (idx + 1) plan blank_blocks
        (some (pending.getD idx))
    else
      match pending with
      | some p =>
          scan_loop blank scan_blocks (idx + 1)
            (gap_plan_add plan p (idx - p)) (blank_blocks + (idx - p)) none
      | none => scan_loop blank scan_blocks (idx + 1) plan blank_blocks none
  else
    match pending with
    | some p =>
        (gap_plan_add plan p (scan_blocks - p),
         blank_blocks + (scan_blocks - p))
    | none => (plan, blank_blocks)
termination_by scan_blocks - idx
decreasing_by all_goals omega

/-- `scan_existing_file_for_gaps` on a file given as its byte list: returns
the plan of blank runs, the blank-block count and the full-block count. -/
def scan_existing_file_for_gaps (file : List Nat) (expected_blocks : Nat) :
    gap_plan_t × Nat × Nat :=
  let full_blocks := file.length / DVD_VIDEO_LB_LEN
  let scan_blocks := min full_blocks expected_blocks
  let r := scan_loop (blockBlank file) scan_blocks 0 [] 0 none
  (r.1, r.2, full_blocks)

/-- A run of blanks that the walk has already closed: nonempty, entirely
blank, ends strictly before `idx` at a non-blank block, and starts either
at 0 or right after a non-blank block. -/
def ClosedRun (blank : Nat → Bool) (idx s c : Nat) : Prop :=
  0 < c ∧ s + c < idx ∧ (∀ i, s ≤ i → i < s + c → blank i = true) ∧
    (s = 0 ∨ blank (s - 1) = false) ∧ blank (s + c) = false

/-- A maximal run of consecutive blank blocks among blocks `[0, n)`. -/
def MaxRun (blank : Nat → Bool) (n s c : Nat) : Prop :=
  0 < c ∧ s + c ≤ n ∧ (∀ i, s ≤ i → i < s + c → blank i = true) ∧
    (s = 0 ∨ blank (s - 1) = false) ∧ (s + c = n ∨ blank (s + c) = false)

/-- What the walk knows about the pending run at block `idx`. -/
def PendingInv (blank : Nat → Bool) (idx : Nat) : Option Nat → Prop
  | some p => p < idx ∧ (∀ i, p ≤ i → i < idx → blank i = true) ∧
      (p = 0 ∨ blank (p - 1) = false)
  | none => idx = 0 ∨ blank (idx - 1) = false

/-- Number of blocks whose blankness has been accounted so far. -/
def scanBound (idx : Nat) : Option Nat → Nat
  | some p => p
  | none => idx

/-- The loop invariant of the scanning walk. -/
def ScanInv (blank : Nat → Bool) (idx : Nat) (plan : gap_plan_t)
    (blank_blocks : Nat) (pending : Option Nat) : Prop :=
  (∀ r : gap_range_t, r ∈ plan ↔
      ClosedRun blank idx r.start_block r.block_count) ∧
  PendingInv blank idx pending ∧
  blank_blocks = (List.range (scanBound idx pending)).countP blank

/-! ## Verification sampling -/

/-- The forward walk of `gap_collect_samples`: advance to the first block
that is not in a gap range (or to `available_blocks`). -/
def gap_walk_forward (plan : gap_plan_t) (available_blocks forward : Nat) :
    Nat :=
  if h : forward < available_blocks ∧
      gap_plan_contains plan forward = true then
    gap_walk_forward plan available_blocks (forward + 1)
  else forward
termination_by available_blocks - forward
decreasing_by omega

/-- The backward walk of `gap_collect_samples`. -/
def gap_walk_backward (plan : gap_plan_t) (backward : Nat) : Nat :=
  if h : 0 < backward ∧ gap_plan_contains plan backward = true then
    gap_walk_backward plan (backward - 1)
  else backward
termination_by backward
decreasing_by omega

/-- The unclamped `candidate` for sample `i` of target `target`. -/
def gap_sample_candidate (available_blocks target i : Nat) : Nat :=
  ((i + 1) * available_blocks) / (target + 1)

/-- `candidate` after the `candidate >= available_blocks` clamp. -/
def gap_sample_clamped (available_blocks target i : Nat) : Nat :=
  if gap_sample_candidate available_blocks target i ≥ available_blocks then
    available_blocks - 1
  else gap_sample_candidate available_blocks target i

/-- The block picked for sample `i`: the forward walk from the (unclamped)
candidate, falling back to the backward walk from the clamped candidate
when the forward walk reaches the end, and skipping the candidate (`none`)
when the backward walk also ends inside a gap. -/
def gap_sample_pick (plan : gap_plan_t)
    (available_blocks target i : Nat) : Option Nat :=
  if gap_walk_forward plan available_blocks
      (gap_sample_candidate available_blocks target i) ≥ available_blocks then
    if gap_plan_contains plan
        (gap_walk_backward plan
          (gap_sample_clamped available_blocks target i)) = true then none
    else some (gap_walk_backward plan
      (gap_sample_clamped available_blocks target i))
  else some (gap_walk_forward plan available_blocks
    (gap_sample_candidate available_blocks target i))

/-- The `for` loop of `gap_collect_samples`, collecting into `samples`;
a pick equal to the immediately preceding collected sample is dropped. -/
def gap_collect_samples_loop (plan : gap_plan_t)
    (available_blocks target i : Nat) (samples : List Nat) : List Nat :=
  if h : i < target then
    match gap_sample_pick plan available_blocks target i with
    | none => gap_collect_samples_loop plan available_blocks target (i + 1)
        samples
    | some v =>
        if samples.getLast? = some v then
          gap_collect_samples_loop plan available_blocks target (i + 1)
            samples
        else
          gap_collect_samples_loop plan available_blocks target (i + 1)
            (samples ++ [v])
  else samples
termination_by target - i
decreasing_by all_goals omega

/-- `gap_collect_samples`: collect up to `desired` verification sample
block indices. -/
def gap_collect_samples (plan : gap_plan_t)
    (available_blocks desired : Nat) : List Nat :=
  if available_blocks = 0 ∨ desired = 0 then []
  else
    let target :=
      if available_blocks < desired then available_blocks else desired
    gap_collect_samples_loop plan available_blocks target 0 []

/-! ## Byte-level file model for the refresher -/

/-- The bytes delivered by `DVDReadBlocks` for `count` blocks starting at
absolute block `offset`. -/
def readData (disc : Nat → Block) (offset count : Nat) : List Nat :=
  ((List.range count).map (fun i => disc (offset + i))).flatten

/-- A well-formed disc delivers 2048-byte blocks. -/
def DiscWF (disc : Nat → Block) : Prop :=
  ∀ b, (disc b).length = DVD_VIDEO_LB_LEN

/-- `pwrite` of `data` at byte offset `off` into a file: overwrites in
place, extending the file (with a zero hole below `off` if needed). -/
def pwrite_bytes (file : List Nat) (off : Nat) (data : List Nat) :
    List Nat :=
  (file ++ List.replicate (off - file.length) 0).take off ++
    (data ++
      (file ++ List.replicate (off - file.length) 0).drop
        (off + data.length))

/-- `read_error_strategy_t`. -/
inductive read_error_strategy_t where
  | STRATEGY_ABORT
  | STRATEGY_SKIP_BLOCK
  | STRATEGY_SKIP_MULTIBLOCK
deriving DecidableEq, Repr

/-- `gap_strategy_t`. -/
inductive gap_strategy_t where
  | GAP_STRATEGY_FORWARD
  | GAP_STRATEGY_REVERSE
  | GAP_STRATEGY_OUTSIDE_IN
  | GAP_STRATEGY_RANDOM
deriving DecidableEq, Repr

/-- The mutable state threaded through the gap refilling code: the output
file's bytes, the log of issued `pwrite`s (absolute block offset and block
count), and the `filled_blocks` counter. -/
structure GapFillSt where
  file : List Nat
  trace : List (Nat × Nat)
  filled : Nat
deriving DecidableEq, Repr

/-- The chunk size of one `gap_process_segment` iteration. -/
def gps_chunk (block_count cursor : Nat) : Nat :=
  min (block_count - cursor) BUFFER_SIZE

/-- `usable_blocks` of one `gap_process_segment` iteration, from the
`DVDReadBlocks` result: the full chunk on a full read, the partial count on
a short read, 0 on a read failure. -/
def gps_usable (got : Nat → Nat → Int)
    (dvd_offset segment_start block_count cursor : Nat) : Nat :=
  if got (dvd_offset + (segment_start + cursor))
      (gps_chunk block_count cursor) =
      (gps_chunk block_count cursor : Int) then
    gps_chunk block_count cursor
  else if 0 < got (dvd_offset + (segment_start + cursor))
      (gps_chunk block_count cursor) then
    (got (dvd_offset + (segment_start + cursor))
      (gps_chunk block_count cursor)).toNat
  else 0

/-- The `pwrite` of one `gap_process_segment` iteration: writes the usable
blocks at the matching file offset and logs the write; no write when
nothing was read.  `pwrite` is modelled as always succeeding (file I/O
errors are outside this embedding). -/
def gps_write (disc : Nat → Block) (got : Nat → Nat → Int)
    (dvd_offset segment_start block_count cursor : Nat) (st : GapFillSt) :
    GapFillSt :=
  if 0 < gps_usable got dvd_offset segment_start block_count cursor then
    { file := pwrite_bytes st.file
        ((segment_start + cursor) * DVD_VIDEO_LB_LEN)
        (readData disc (dvd_offset + (segment_start + cursor))
          (gps_usable got dvd_offset segment_start block_count cursor)),
      trace := st.trace ++
        [(segment_start + cursor,
          gps_usable got dvd_offset segment_start block_count cursor)],
      filled := st.filled +
        gps_usable got dvd_offset segment_start block_count cursor }
  else st

/-- `gap_process_segment`: copy `block_count` blocks of one segment from
the disc into the file at matching block offsets, skipping unreadable
blocks per the error strategy.  A read result above the requested count
cannot occur for a conforming disc library and the theorems assume it
away. -/
def gap_process_segment (disc : Nat → Block) (got : Nat → Nat → Int)
    (dvd_offset segment_start block_count : Nat)
    (errorstrat : read_error_strategy_t) (cursor : Nat) (st : GapFillSt) :
    Nat × GapFillSt :=
  if h : cursor < block_count then
    if hlt : gps_usable got dvd_offset segment_start block_count cursor <
        gps_chunk block_count cursor then
      if hrem : block_count -
          (cursor +
            gps_usable got dvd_offset segment_start block_count cursor) =
          0 then
        (0, gps_write disc got dvd_offset segment_start block_count cursor
          st)
      else
        match errorstrat with
        | .STRATEGY_ABORT =>
            (1, gps_write disc got dvd_offset segment_start block_count
              cursor st)
        | .STRATEGY_SKIP_BLOCK =>
            gap_process_segment disc got dvd_offset segment_start
              block_count errorstrat
              (cursor +
                gps_usable got dvd_offset segment_start block_count cursor +
                min 1 (block_count -
                  (cursor + gps_usable got dvd_offset segment_start
                    block_count cursor)))
              (gps_write disc got dvd_offset segment_start block_count
                cursor st)
        | .STRATEGY_SKIP_MULTIBLOCK =>
            gap_process_segment disc got dvd_offset segment_start
              block_count errorstrat
              (cursor +
                gps_usable got dvd_offset segment_start block_count cursor +
                min
                  (if gps_chunk block_count cursor -
                      gps_usable got dvd_offset segment_start block_count
                        cursor = 0 then 1
                   else gps_chunk block_count cursor -
                     gps_usable got dvd_offset segment_start block_count
                       cursor)
                  (block_count -
                    (cursor + gps_usable got dvd_offset segment_start
                      block_count cursor)))
              (gps_write disc got dvd_offset segment_start block_count
                cursor st)
    else
      gap_process_segment disc got dvd_offset segment_start block_count
        errorstrat (cursor + gps_chunk block_count cursor)
        (gps_write disc got dvd_offset segment_start block_count cursor st)
  else (0, st)
termination_by block_count - cursor
decreasing_by
  · omega
  · split <;> omega
  · have hc : 0 < gps_chunk block_count cursor := by
      unfold gps_chunk BUFFER_SIZE
      omega
    omega

/-- Sequential processing of a list of segments, stopping at the first
failing segment (the flattened form of the per-range loops of
`gap_fill_from_plan`). -/
def process_segments (disc : Nat → Block) (got : Nat → Nat → Int)
    (dvd_offset : Nat) (errorstrat : read_error_strategy_t) :
    List (Nat × Nat) → GapFillSt → Nat × GapFillSt
  | [], st => (0, st)
  | seg :: rest, st =>
      match gap_process_segment disc got dvd_offset seg.1 seg.2 errorstrat
        0 st with
      | (0, st') => process_segments disc got dvd_offset errorstrat rest st'
      | (_ + 1, st') => (1, st')

/-- The front-to-back 512-block segmentation of one range (used by the
RANDOM strategy's flattening). -/
def range_segments (range_start range_blocks produced : Nat) :
    List (Nat × Nat) :=
  if h : produced < range_blocks then
    (range_start + produced, min (range_blocks - produced) BUFFER_SIZE) ::
      range_segments range_start range_blocks
        (produced + min (range_blocks - produced) BUFFER_SIZE)
  else []
termination_by range_blocks - produced
decreasing_by simp [BUFFER_SIZE] at *; omega

/-- The back-to-front 512-block segmentation of one range (REVERSE). -/
def reverse_segments (range_start range_blocks processed : Nat) :
    List (Nat × Nat) :=
  if h : processed < range_blocks then
    (range_start + range_blocks - processed -
        min (range_blocks - processed) BUFFER_SIZE,
      min (range_blocks - processed) BUFFER_SIZE) ::
      reverse_segments range_start range_blocks
        (processed + min (range_blocks - processed) BUFFER_SIZE)
  else []
termination_by range_blocks - processed
decreasing_by simp [BUFFER_SIZE] at *; omega

/-- The alternating head/tail 512-block segmentation of one range
(OUTSIDE_IN). -/
def outside_in_segments (range_start front back : Nat) (use_front : Bool) :
    List (Nat × Nat) :=
  if h : front < back then
    if use_front then
      (range_start + front, min (back - front) BUFFER_SIZE) ::
        outside_in_segments range_start
          (front + min (back - front) BUFFER_SIZE) back false
    else
      (range_start + (back - min (back - front) BUFFER_SIZE),
        min (back - front) BUFFER_SIZE) ::
        outside_in_segments range_start front
          (back - min (back - front) BUFFER_SIZE) true
  else []
termination_by back - front
decreasing_by
  all_goals simp [BUFFER_SIZE] at *
  all_goals omega

/-- The flattening of the whole plan into 512-block segments (RANDOM). -/
def gap_fill_segments (plan : gap_plan_t) : List (Nat × Nat) :=
  plan.flatMap (fun r => range_segments r.start_block r.block_count 0)

/-- Swap two positions of the segment array. -/
def swapPair (l : List (Nat × Nat)) (a b : Nat) : List (Nat × Nat) :=
  (l.set a (l.getD b (0, 0))).set b (l.getD a (0, 0))

/-- The Fisher-Yates shuffle seeded through `rand` (the value of the
`rand()` call made at loop counter `i`). -/
def shuffle_loop (rand : Nat → Nat) (segs : List (Nat × Nat)) (i : Nat) :
    List (Nat × Nat) :=
  if h : 1 < i then
    shuffle_loop rand (swapPair segs (i - 1) (rand i % i)) (i - 1)
  else segs
termination_by i
decreasing_by omega

/-- `gap_fill_from_plan`: refill the plan's ranges in the order given by
the gap strategy.  The per-range loops of the C code are flattened into
segment lists processed sequentially, which preserves both the segment
order and the stop-at-first-failure behavior. -/
def gap_fill_from_plan (disc : Nat → Block) (got : Nat → Nat → Int)
    (dvd_offset : Nat) (plan : gap_plan_t)
    (errorstrat : read_error_strategy_t) (gap_strategy : gap_strategy_t)
    (rand : Nat → Nat) (st : GapFillSt) : Nat × GapFillSt :=
  if plan.length = 0 then (0, st)
  else
    match gap_strategy with
    | .GAP_STRATEGY_FORWARD =>
        process_segments disc got dvd_offset errorstrat
          (plan.map (fun r => (r.start_block, r.block_count))) st
    | .GAP_STRATEGY_REVERSE =>
        process_segments disc got dvd_offset errorstrat
          (plan.flatMap (fun r =>
            reverse_segments r.start_block r.block_count 0)) st
    | .GAP_STRATEGY_OUTSIDE_IN =>
        process_segments disc got dvd_offset errorstrat
          (plan.flatMap (fun r =>
            outside_in_segments r.start_block 0 r.block_count true)) st
    | .GAP_STRATEGY_RANDOM =>
        process_segments disc got dvd_offset errorstrat
          (shuffle_loop rand (gap_fill_segments plan)
            (gap_fill_segments plan).length) st

/-- `gap_verify_samples`: read one block from the disc and one from the
file at each sample block; nonzero on the first read failure, short file
read, or mismatch. -/
def gap_verify_samples (file : List Nat) (disc : Nat → Block)
    (got : Nat → Nat → Int) (dvd_offset : Nat) : List Nat → Nat
  | [] => 0
  | block :: rest =>
      if got (dvd_offset + block) 1 ≠ 1 then 1
      else if (blockBytes file block).length ≠ DVD_VIDEO_LB_LEN then 1
      else if disc (dvd_offset + block) ≠ blockBytes file block then 1
      else gap_verify_samples file disc got dvd_offset rest

/-- The outcome of a fill-gaps refresh of one file. -/
structure FillGapsResult where
  result : Nat
  file : List Nat
  trace : List (Nat × Nat)
  filled : Nat
deriving DecidableEq, Repr

/-- The `existing_blocks` of the refresh: the file's full blocks, clamped
to the expected count. -/
def fillgaps_existing_blocks (file : List Nat) (size : Nat) : Nat :=
  min (scan_existing_file_for_gaps file size).2.2 size

/-- The refresh's gap plan: the scan's blank runs plus the missing
trailing range when the file is shorter than expected. -/
def fillgaps_plan (file : List Nat) (size : Nat) : gap_plan_t :=
  if fillgaps_existing_blocks file size < size then
    gap_plan_add (scan_existing_file_for_gaps file size).1
      (fillgaps_existing_blocks file size)
      (size - fillgaps_existing_blocks file size)
  else (scan_existing_file_for_gaps file size).1

/-- The verification samples collected for the refresh. -/
def fillgaps_samples (file : List Nat) (size : Nat) : List Nat :=
  gap_collect_samples (fillgaps_plan file size) size GAP_SAMPLE_TARGET

/-- `DVDCopyBlocksFillGaps`: scan the existing file, extend the plan with
the missing trailing range, verify samples against the disc, then refill
the plan.  (The printed report and its re-scan do not change the file and
are not part of the result.) -/
def DVDCopyBlocksFillGaps (disc : Nat → Block) (got : Nat → Nat → Int)
    (rand : Nat → Nat) (gap_strategy : gap_strategy_t) (file : List Nat)
    (dvd_offset size : Nat) (errorstrat : read_error_strategy_t) :
    FillGapsResult :=
  if 0 < (fillgaps_samples file size).length ∧
      gap_verify_samples file disc got dvd_offset
        (fillgaps_samples file size) ≠ 0 then
    { result := 1, file := file, trace := [], filled := 0 }
  else
    match gap_fill_from_plan disc got dvd_offset (fillgaps_plan file size)
      errorstrat gap_strategy rand ⟨file, [], 0⟩ with
    | (res, st) =>
        { result := res, file := st.file, trace := st.trace,
          filled := st.filled }

/-- The number of blank blocks among the file's scanned blocks (full
blocks clamped to the expected count). -/
def blankCount (file : List Nat) (expected : Nat) : Nat :=
  (List.range (min (file.length / DVD_VIDEO_LB_LEN) expected)).countP
    (blockBlank file)

/-- The number of expected blocks missing from the file's full blocks. -/
def missingCount (file : List Nat) (expected : Nat) : Nat :=
  expected - min (file.length / DVD_VIDEO_LB_LEN) expected

/-- All mutations of `file` into `file'` lie at byte positions satisfying
`W` and below the byte bound `hi`; every other position is preserved, with
positions between the old and the new end of file reading as zero (file
holes). -/
def writes_within (W : Nat → Prop) (hi : Nat) (file file' : List Nat) :
    Prop :=
  file.length ≤ file'.length ∧ file'.length ≤ max file.length hi ∧
    ∀ p, ¬ W p →
      file'[p]? =
        if p < file.length then file[p]?
        else if p < file'.length then some 0 else none

/-- A block is covered by some range of the plan. -/
def planBlocks (plan : gap_plan_t) (b : Nat) : Prop :=
  ∃ r ∈ plan, r.start_block ≤ b ∧ b < r.start_block + r.block_count

/-- The `found_chapter` scan of `DVDGetInfo`: the first position `i` among
the top `min titles 4` chapter-ranking entries with
`candidate == title_set_chapter_array[i]`, as `some (i + 1)`, else
`none` (the enclosing code then keeps its initial value). -/
def found_chapter_scan (candidate titles : Nat) (chap : Nat → Nat)
    (i : Nat) : Option Nat :=
  if h : i < titles ∧ i < 4 then
    if candidate = chap i then some (i + 1)
    else found_chapter_scan candidate titles chap (i + 1)
  else none
termination_by 4 - i
decreasing_by omega

/-- The first `found_chapter` computation (initial value 6). -/
def DVDGetInfo_found_chapter (candidate titles : Nat)
    (chap : Nat → Nat) : Nat :=
  (found_chapter_scan candidate titles chap 0).getD 6

/-- The fall-through re-test `found_chapter` computation (initial value
5). -/
def DVDGetInfo_found_chapter_retest (candidate titles : Nat)
    (chap : Nat → Nat) : Nat :=
  (found_chapter_scan candidate titles chap 0).getD 5

/-- The per-file accumulation state of `DVDWriteCells`: blocks in the
current output file, current part index, and the sizes (in blocks) of the
files finalized so far. -/
structure WriteCellsSt where
  size : Nat
  vob : Nat
  files : List Nat
deriving DecidableEq, Repr

/-- The `to_read` cap of `DVDWriteCells`: the cell's remainder, capped so
the current file cannot pass `MAX_VOB_SIZE`, then capped at
`BUFFER_SIZE`. -/
def DVDWriteCells_chunk (left size : Nat) : Nat :=
  if (if left + size > MAX_VOB_SIZE then MAX_VOB_SIZE - size else left) >
      BUFFER_SIZE then
    BUFFER_SIZE
  else if left + size > MAX_VOB_SIZE then MAX_VOB_SIZE - size else left

/-- The inner `while (left > 0)` loop of `DVDWriteCells` for one cell
range: read capped chunks, stop with result 1 on a failed or empty read,
and rotate to a new output file when the cap is reached with data left in
the cell. -/
def DVDWriteCells_cell (got : Nat → Nat → Int) (soffset left : Nat)
    (st : WriteCellsSt) : Nat × WriteCellsSt :=
  if hl : 0 < left then
    if hr : 0 < got soffset (DVDWriteCells_chunk left st.size) then
      if MAX_VOB_SIZE ≤ st.size +
            (got soffset (DVDWriteCells_chunk left st.size)).toNat ∧
          0 < left -
            (got soffset (DVDWriteCells_chunk left st.size)).toNat then
        DVDWriteCells_cell got
          (soffset + (got soffset (DVDWriteCells_chunk left st.size)).toNat)
          (left - (got soffset (DVDWriteCells_chunk left st.size)).toNat)
          ⟨0, st.vob + 1, st.files ++
            [st.size +
              (got soffset (DVDWriteCells_chunk left st.size)).toNat]⟩
      else
        DVDWriteCells_cell got
          (soffset + (got soffset (DVDWriteCells_chunk left st.size)).toNat)
          (left - (got soffset (DVDWriteCells_chunk left st.size)).toNat)
          ⟨st.size + (got soffset (DVDWriteCells_chunk left st.size)).toNat,
            st.vob, st.files⟩
    else (1, st)
  else (0, st)
termination_by left
decreasing_by
  · omega
  · omega

/-- The outer cell loop of `DVDWriteCells`, stopping at the first failed
cell. -/
def DVDWriteCells_cells (got : Nat → Nat → Int) :
    List (Nat × Nat) → WriteCellsSt → Nat × WriteCellsSt
  | [], st => (0, st)
  | c :: rest, st =>
      match DVDWriteCells_cell got c.1 (c.2 - c.1) st with
      | (0, st') => DVDWriteCells_cells got rest st'
      | (r, st') => (r, st')

/-- `DVDWriteCells` over the selected cell ranges: stream every cell, then
finalize the current output file. -/
def DVDWriteCells (got : Nat → Nat → Int) (cells : List (Nat × Nat)) :
    Nat × WriteCellsSt :=
  match DVDWriteCells_cells got cells ⟨0, 1, []⟩ with
  | (0, st) => (0, ⟨st.size, st.vob, st.files ++ [st.size]⟩)
  | (r, st) => (r, st)

/-- The `while (remaining > 0)` loop of `DVDCopyBlocks` (non-refresh
mode).  `to_read` persists across iterations and is only clamped down to
`remaining`; a read returning `act_read ≠ to_read` pads by the error
strategy (negative returns count as 0 read blocks), ABORT stopping with
result 1.  `out` is the byte stream appended to the destination.  The
`0 < min to_read remaining` guard marks the out-of-contract state
(`to_read = 0`), which the entry point (`to_read = BUFFER_SIZE`) never
reaches. -/
def DVDCopyBlocks_loop (disc : Nat → Block) (got : Nat → Nat → Int)
    (errorstrat : read_error_strategy_t) (offset remaining to_read : Nat)
    (out : List Nat) : Nat × List Nat :=
  if hrem : 0 < remaining then
    if htr : 0 < min to_read remaining then
      if hae : got offset (min to_read remaining) =
          ((min to_read remaining : Nat) : Int) then
        DVDCopyBlocks_loop disc got errorstrat
          (offset + (got offset (min to_read remaining)).toNat)
          (remaining - (got offset (min to_read remaining)).toNat)
          (min to_read remaining)
          (out ++ readData disc offset
            (got offset (min to_read remaining)).toNat)
      else
        match errorstrat with
        | .STRATEGY_ABORT =>
            (1, out ++ readData disc offset
              (got offset (min to_read remaining)).toNat)
        | .STRATEGY_SKIP_BLOCK =>
            DVDCopyBlocks_loop disc got errorstrat
              (offset + (got offset (min to_read remaining)).toNat + 1)
              (remaining - (got offset (min to_read remaining)).toNat - 1)
              (min to_read remaining)
              (out ++ readData disc offset
                  (got offset (min to_read remaining)).toNat ++
                zeroBlock)
        | .STRATEGY_SKIP_MULTIBLOCK =>
            DVDCopyBlocks_loop disc got errorstrat
              (offset + (got offset (min to_read remaining)).toNat +
                (min to_read remaining -
                  (got offset (min to_read remaining)).toNat))
              (remaining - (got offset (min to_read remaining)).toNat -
                (min to_read remaining -
                  (got offset (min to_read remaining)).toNat))
              (min to_read remaining)
              (out ++ readData disc offset
                  (got offset (min to_read remaining)).toNat ++
                List.flatten (List.replicate
                  (min to_read remaining -
                    (got offset (min to_read remaining)).toNat)
                  zeroBlock))
    else (1, out)
  else (0, out)
termination_by remaining
decreasing_by
  · omega
  · omega
  · omega

/-- `DVDCopyBlocks` (non-refresh mode): run the copy loop from the start
of the range with the initial `to_read` of `BUFFER_SIZE` blocks. -/
def DVDCopyBlocks (disc : Nat → Block) (got : Nat → Nat → Int)
    (offset size : Nat) (errorstrat : read_error_strategy_t) :
    Nat × List Nat :=
  DVDCopyBlocks_loop disc got errorstrat offset size BUFFER_SIZE []

/-- The cell range at index `k` of the paired
`(cell_start_sector, cell_end_sector)` arrays. -/
def cellAt (l : List (Int × Int)) (k : Nat) : Int × Int := l.getD k (0, 0)

/-- One comparison of `bsort_min_to_max`: swap entries `i` and `j` of both
arrays when `sector[i] < sector[j]`. -/
def bsort_swap (l : List (Int × Int)) (i j : Nat) : List (Int × Int) :=
  if (cellAt l i).1 < (cellAt l j).1 then
    (l.set i (cellAt l j)).set j (cellAt l i)
  else l

/-- The inner `for (j...)` loop of `bsort_min_to_max`. -/
def bsort_inner (size i : Nat) (l : List (Int × Int)) (j : Nat) :
    List (Int × Int) :=
  if j < size then bsort_inner size i (bsort_swap l i j) (j + 1) else l
termination_by size - j
decreasing_by omega

/-- The outer `for (i...)` loop of `bsort_min_to_max`. -/
def bsort_outer (size : Nat) (l : List (Int × Int)) (i : Nat) :
    List (Int × Int) :=
  if i < size then bsort_outer size (bsort_inner size i l 0) (i + 1)
  else l
termination_by size - i
decreasing_by omega

/-- `bsort_min_to_max` over the paired sector arrays. -/
def bsort_min_to_max (l : List (Int × Int)) : List (Int × Int) :=
  bsort_outer l.length l 0

/-- One step of `align_end_sector`: clamp `end[i]` to
`start[i + 1] - 1` when they touch or overlap. -/
def align_step (l : List (Int × Int)) (i : Nat) : List (Int × Int) :=
  if (cellAt l (i + 1)).1 ≤ (cellAt l i).2 then
    l.set i ((cellAt l i).1, (cellAt l (i + 1)).1 - 1)
  else l

/-- The `for (i = 0; i < size - 1; i++)` loop of `align_end_sector`. -/
def align_loop (size : Nat) (l : List (Int × Int)) (i : Nat) :
    List (Int × Int) :=
  if i + 1 < size then align_loop size (align_step l i) (i + 1) else l
termination_by size - i
decreasing_by omega

/-- `align_end_sector` over the paired sector arrays. -/
def align_end_sector (l : List (Int × Int)) : List (Int × Int) :=
  align_loop l.length l 0

/-- Sector starts of the first `m` entries are in non-decreasing order. -/
def SortedLE (l : List (Int × Int)) (m : Nat) : Prop :=
  ∀ p q, p ≤ q → q < m → (cellAt l p).1 ≤ (cellAt l q).1

theorem gap_plan_add_zero (plan : gap_plan_t) (start : Nat) :
    gap_plan_add plan start 0 = plan := by
  simp [gap_plan_add]

/-- In an ordered plan every range ends no later than the last range. -/
theorem gap_plan_ordered_le_last {plan : gap_plan_t} {last a : gap_range_t}
    (h : gap_plan_ordered plan) (hlast : plan.getLast? = some last)
    (ha : a ∈ plan) :
    a.start_block + a.block_count ≤ last.start_block + last.block_count := by
  induction plan with
  | nil => cases ha
  | cons b rest ih =>
      rw [gap_plan_ordered, List.pairwise_cons] at h
      cases rest with
      | nil =>
          have hb : b = last := by simpa using hlast
          have ha' : a = b := by simpa using ha
          subst hb; subst ha'
          exact le_rfl
      | cons c rest' =>
          have hlast' : (c :: rest').getLast? = some last := by
            rw [← hlast, List.getLast?_cons_cons]
          rcases List.mem_cons.mp ha with ha' | ha'
          · subst ha'
            have hm : last ∈ c :: rest' := by
              rcases List.mem_getLast?_eq_getLast (Option.mem_def.mpr hlast') with ⟨hne', heq⟩
              rw [heq]
              exact List.getLast_mem hne'
            exact le_of_lt (lt_of_lt_of_le (h.1 last hm) (Nat.le_add_right _ _))
          · exact ih h.2 hlast' ha'

/-- `gap_plan_add` preserves the ordered-disjoint invariant. -/
theorem gap_plan_add_ordered {plan : gap_plan_t} (h : gap_plan_ordered plan)
    (start count : Nat) : gap_plan_ordered (gap_plan_add plan start count) := by
  unfold gap_plan_add
  split
  · exact h
  · match hlast : plan.getLast? with
    | none => ?_
    | some last => ?_
    · have hnil : plan = [] := by
        cases plan with
        | nil => rfl
        | cons a l => simp [List.getLast?_concat, List.getLast?] at hlast
      subst hnil
      simp [gap_plan_ordered]
    · have hne : plan ≠ [] := by
        intro hnil; subst hnil; simp at hlast
      have hsplit : plan = plan.dropLast ++ [plan.getLast hne] :=
        (List.dropLast_append_getLast hne).symm
      have hlast' : plan.getLast hne = last := by
        have := List.getLast?_eq_getLast plan hne
        rw [hlast] at this
        exact (Option.some_injective _ this.symm)
      simp only
      split
      · split
        · -- coalesce: the last range keeps its start and grows its end
          have hp : gap_plan_ordered (plan.dropLast ++ [plan.getLast hne]) := by
            rwa [← hsplit]
          rw [gap_plan_ordered, List.pairwise_append] at hp ⊢
          refine ⟨hp.1, by simp, ?_⟩
          intro a ha b hb
          have hb' : b = (⟨last.start_block, start + count - last.start_block⟩ : gap_range_t) := by
            simpa using hb
          have := hp.2.2 a ha (plan.getLast hne) (by simp)
          rw [hlast'] at this
          subst hb'
          exact this
        · exact h
      · -- append: the new range starts strictly past the last one's end
        rw [gap_plan_ordered, List.pairwise_append]
        refine ⟨h, by simp, ?_⟩
        intro a ha b hb
        have hb' : b = (⟨start, count⟩ : gap_range_t) := by simpa using hb
        subst hb'
        have hle : a.start_block + a.block_count ≤ last.start_block + last.block_count :=
          gap_plan_ordered_le_last h hlast ha
        simp only
        omega

/-- When the plan is nonempty and the inserted start falls within or at the
end of the last range, `gap_plan_add` coalesces: the plan's length does not
grow. -/
theorem gap_plan_add_coalesces {plan : gap_plan_t} {last : gap_range_t}
    (hlast : plan.getLast? = some last) {start : Nat}
    (hstart : start ≤ last.start_block + last.block_count) (count : Nat) :
    (gap_plan_add plan start count).length = plan.length := by
  have hne : plan ≠ [] := by
    intro hnil; subst hnil; simp at hlast
  unfold gap_plan_add
  split
  · rfl
  · rw [hlast]
    simp only
    rw [if_pos hstart]
    split
    · have : plan.dropLast.length + 1 = plan.length := by
        have := List.length_dropLast plan
        have : 0 < plan.length := List.length_pos.mpr hne
        simp [List.length_dropLast]
        omega
      simpa using this
    · rfl

theorem gap_plan_build_ordered (inserts : List (Nat × Nat)) :
    gap_plan_ordered (gap_plan_build inserts) := by
  suffices h : ∀ p : gap_plan_t, gap_plan_ordered p →
      gap_plan_ordered (inserts.foldl (fun p sc => gap_plan_add p sc.1 sc.2) p) by
    exact h [] (by simp [gap_plan_ordered])
  induction inserts with
  | nil => intro p hp; exact hp
  | cons sc rest ih =>
      intro p hp
      exact ih _ (gap_plan_add_ordered hp sc.1 sc.2)

/-- The ordered-disjoint invariant in indexed form. -/
theorem gap_plan_ordered_getD {plan : gap_plan_t} (h : gap_plan_ordered plan)
    {i j : Nat} (hij : i < j) (hj : j < plan.length) :
    (plan.getD i ⟨0, 0⟩).start_block + (plan.getD i ⟨0, 0⟩).block_count <
      (plan.getD j ⟨0, 0⟩).start_block := by
  have hi : i < plan.length := lt_trans hij hj
  rw [List.getD_eq_getElem?_getD, List.getElem?_eq_getElem hi,
      List.getD_eq_getElem?_getD, List.getElem?_eq_getElem hj]
  exact List.pairwise_iff_get.mp h ⟨i, hi⟩ ⟨j, hj⟩ hij

/-- **C2.** Every plan built through `gap_plan_add` insertions satisfies the
ordered-disjoint invariant (for all `i < j`,
`ranges[i].start_block + ranges[i].block_count < ranges[j].start_block`);
an insertion whose start falls within or at the end of the last range is
coalesced into the last range rather than appended; and a zero-count
insertion is a no-op. -/
theorem C2_gap_plan_add_invariant :
    (∀ (inserts : List (Nat × Nat)) (i j : Nat), i < j →
        j < (gap_plan_build inserts).length →
        ((gap_plan_build inserts).getD i ⟨0, 0⟩).start_block +
            ((gap_plan_build inserts).getD i ⟨0, 0⟩).block_count <
          ((gap_plan_build inserts).getD j ⟨0, 0⟩).start_block) ∧
    (∀ (plan : gap_plan_t) (last : gap_range_t) (start count : Nat),
        plan.getLast? = some last →
        start ≤ last.start_block + last.block_count → count ≠ 0 →
        gap_plan_add plan start count =
          plan.dropLast ++
            [⟨last.start_block,
              max (last.start_block + last.block_count) (start + count) -
                last.start_block⟩]) ∧
    (∀ (plan : gap_plan_t) (start : Nat), gap_plan_add plan start 0 = plan) := by
  refine ⟨?_, ?_, gap_plan_add_zero⟩
  · intro inserts i j hij hj
    exact gap_plan_ordered_getD (gap_plan_build_ordered inserts) hij hj
  · intro plan last start count hlast hstart hcount
    have hne : plan ≠ [] := by
      intro hnil; subst hnil; simp at hlast
    have hsplit : plan.dropLast ++ [last] = plan :=
      List.dropLast_append_getLast? last (Option.mem_def.mpr hlast)
    unfold gap_plan_add
    rw [if_neg hcount, hlast]
    simp only
    rw [if_pos hstart]
    split
    · have hmax : max (last.start_block + last.block_count) (start + count) =
          start + count := by omega
      rw [hmax]
    · have hmax : max (last.start_block + last.block_count) (start + count) =
          last.start_block + last.block_count := by omega
      rw [hmax]
      have hcancel : last.start_block + last.block_count - last.start_block =
          last.block_count := by omega
      rw [hcancel]
      exact hsplit.symm

/-- Witness for C2 at concrete inputs. -/
theorem C2_witness :
    ((gap_plan_build [(0, 2), (1, 2), (5, 3), (9, 0)]).getD 0 ⟨0, 0⟩).start_block +
          ((gap_plan_build [(0, 2), (1, 2), (5, 3), (9, 0)]).getD 0 ⟨0, 0⟩).block_count <
        ((gap_plan_build [(0, 2), (1, 2), (5, 3), (9, 0)]).getD 1 ⟨0, 0⟩).start_block ∧
      gap_plan_add [⟨0, 2⟩] 1 3 = [⟨0, 4⟩] ∧
      gap_plan_add [⟨0, 2⟩, ⟨7, 1⟩] 3 0 = [⟨0, 2⟩, ⟨7, 1⟩] := by
  refine ⟨?_, ?_, ?_⟩
  · exact C2_gap_plan_add_invariant.1 [(0, 2), (1, 2), (5, 3), (9, 0)] 0 1
      (by decide) (by decide)
  · have h := C2_gap_plan_add_invariant.2.1 [⟨0, 2⟩] ⟨0, 2⟩ 1 3 (by decide)
      (by decide) (by decide)
    rw [h]
    decide
  · exact C2_gap_plan_add_invariant.2.2 [⟨0, 2⟩, ⟨7, 1⟩] 3

theorem gap_plan_add_of_empty {start count : Nat} (hc : count ≠ 0) :
    gap_plan_add [] start count = [⟨start, count⟩] := by
  simp [gap_plan_add, hc]

/-- `gap_plan_add` appends when the new start lies strictly past the end of
the last range. -/
theorem gap_plan_add_append {plan : gap_plan_t} {last : gap_range_t}
    (hlast : plan.getLast? = some last) {start count : Nat}
    (hgt : last.start_block + last.block_count < start) (hc : count ≠ 0) :
    gap_plan_add plan start count = plan ++ [⟨start, count⟩] := by
  unfold gap_plan_add
  rw [if_neg hc, hlast]
  simp only
  rw [if_neg (by omega)]

/-- Two nonempty all-blank runs ending at the same place, each starting at 0
or right after a non-blank block, have the same start. -/
theorem blank_run_start_eq {blank : Nat → Bool} {s p t : Nat}
    (hs : s < t) (hp : p < t)
    (hsb : ∀ i, s ≤ i → i < t → blank i = true)
    (hpb : ∀ i, p ≤ i → i < t → blank i = true)
    (hsl : s = 0 ∨ blank (s - 1) = false)
    (hpl : p = 0 ∨ blank (p - 1) = false) : s = p := by
  rcases Nat.lt_trichotomy s p with h | h | h
  · rcases hpl with h0 | hb
    · omega
    · have := hsb (p - 1) (by omega) (by omega)
      rw [this] at hb
      cases hb
  · exact h
  · rcases hsl with h0 | hb
    · omega
    · have := hpb (s - 1) (by omega) (by omega)
      rw [this] at hb
      cases hb

/-- In a plan of closed runs, every range ends strictly before the pending
start (the block right after a closed run is non-blank, and everything from
the pending start on is blank). -/
theorem closed_run_lt_pending {blank : Nat → Bool} {idx p : Nat}
    {plan : gap_plan_t}
    (hplan : ∀ r : gap_range_t, r ∈ plan →
      ClosedRun blank idx r.start_block r.block_count)
    (hpend : PendingInv blank idx (some p)) :
    ∀ r : gap_range_t, r ∈ plan → r.start_block + r.block_count < p := by
  intro r hr
  have hc := hplan r hr
  rcases hc with ⟨hc1, hc2, _hc3, _hc4, hc5⟩
  by_contra hge
  have hmem : p ≤ r.start_block + r.block_count := by omega
  have := hpend.2.1 (r.start_block + r.block_count) hmem hc2
  rw [this] at hc5
  cases hc5

theorem countP_range_succ (blank : Nat → Bool) (n : Nat) :
    (List.range (n + 1)).countP blank =
      (List.range n).countP blank + if blank n then 1 else 0 := by
  rw [List.range_succ, List.countP_append]
  simp [List.countP_cons]

theorem countP_range_blank_from (blank : Nat → Bool) (p : Nat) :
    ∀ d : Nat, (∀ i, p ≤ i → i < p + d → blank i = true) →
      (List.range (p + d)).countP blank =
        (List.range p).countP blank + d := by
  intro d
  induction d with
  | zero => intro _; simp
  | succ e ih =>
      intro hall
      have h1 : p + (e + 1) = (p + e) + 1 := by omega
      rw [h1, countP_range_succ, ih (fun i h1 h2 => hall i h1 (by omega)),
        hall (p + e) (by omega) (by omega)]
      simp
      omega

theorem ClosedRun_succ_of_blank {blank : Nat → Bool} {idx : Nat}
    (hb : blank idx = true) (s c : Nat) :
    ClosedRun blank idx s c ↔ ClosedRun blank (idx + 1) s c := by
  unfold ClosedRun
  constructor
  · rintro ⟨h1, h2, h3, h4, h5⟩
    exact ⟨h1, by omega, h3, h4, h5⟩
  · rintro ⟨h1, h2, h3, h4, h5⟩
    refine ⟨h1, ?_, h3, h4, h5⟩
    rcases Nat.lt_or_ge (s + c) idx with h | h
    · exact h
    · have : s + c = idx := by omega
      rw [this] at h5
      rw [hb] at h5
      cases h5

theorem ClosedRun_succ_of_nonblank_none {blank : Nat → Bool} {idx : Nat}
    (hb : blank idx = false) (hpn : PendingInv blank idx none) (s c : Nat) :
    ClosedRun blank (idx + 1) s c ↔ ClosedRun blank idx s c := by
  unfold ClosedRun
  constructor
  · rintro ⟨h1, h2, h3, h4, h5⟩
    refine ⟨h1, ?_, h3, h4, h5⟩
    rcases Nat.lt_or_ge (s + c) idx with h | h
    · exact h
    · exfalso
      have heq : s + c = idx := by omega
      have hidx : idx ≠ 0 := by omega
      rcases hpn with h0 | hfalse
      · exact hidx h0
      · have := h3 (idx - 1) (by omega) (by omega)
        rw [this] at hfalse
        cases hfalse
  · rintro ⟨h1, h2, h3, h4, h5⟩
    exact ⟨h1, by omega, h3, h4, h5⟩

theorem ClosedRun_succ_of_nonblank_pending {blank : Nat → Bool} {idx p : Nat}
    (hb : blank idx = false) (hpi : PendingInv blank idx (some p)) (s c : Nat) :
    ClosedRun blank (idx + 1) s c ↔
      (ClosedRun blank idx s c ∨ (s = p ∧ c = idx - p)) := by
  obtain ⟨hplt, hpall, hpleft⟩ := hpi
  unfold ClosedRun
  constructor
  · rintro ⟨h1, h2, h3, h4, h5⟩
    rcases Nat.lt_or_ge (s + c) idx with h | h
    · exact Or.inl ⟨h1, h, h3, h4, h5⟩
    · have heq : s + c = idx := by omega
      right
      have hs : s = p := by
        refine blank_run_start_eq (t := idx) (by omega) hplt ?_ hpall h4 hpleft
        intro i hi1 hi2
        exact h3 i hi1 (by omega)
      exact ⟨hs, by omega⟩
  · rintro (⟨h1, h2, h3, h4, h5⟩ | ⟨hs, hc⟩)
    · exact ⟨h1, by omega, h3, h4, h5⟩
    · subst hs; subst hc
      refine ⟨by omega, by omega, ?_, hpleft, ?_⟩
      · intro i hi1 hi2
        exact hpall i hi1 (by omega)
      · have : s + (idx - s) = idx := by omega
        rw [this]
        exact hb

/-- Closes the pending run: the resulting plan is an append. -/
theorem gap_plan_add_close {blank : Nat → Bool} {idx p : Nat}
    {plan : gap_plan_t}
    (hplan : ∀ r : gap_range_t, r ∈ plan →
      ClosedRun blank idx r.start_block r.block_count)
    (hpi : PendingInv blank idx (some p)) {e : Nat} (he : p < e) :
    gap_plan_add plan p (e - p) = plan ++ [⟨p, e - p⟩] := by
  have hc : e - p ≠ 0 := by omega
  match hlast : plan.getLast? with
  | none =>
      have : plan = [] := by
        cases plan with
        | nil => rfl
        | cons a l => simp at hlast
      rw [this, gap_plan_add_of_empty hc]
      rfl
  | some last =>
      have hmem : last ∈ plan := by
        rcases List.mem_getLast?_eq_getLast (Option.mem_def.mpr hlast) with
          ⟨hne', heq⟩
        rw [heq]
        exact List.getLast_mem hne'
      have hlt := closed_run_lt_pending hplan hpi last hmem
      exact gap_plan_add_append hlast hlt hc

theorem MaxRun_iff_flush_pending {blank : Nat → Bool} {n p : Nat}
    (hpi : PendingInv blank n (some p)) (s c : Nat) :
    MaxRun blank n s c ↔
      (ClosedRun blank n s c ∨ (s = p ∧ c = n - p)) := by
  obtain ⟨hplt, hpall, hpleft⟩ := hpi
  unfold MaxRun ClosedRun
  constructor
  · rintro ⟨h1, h2, h3, h4, h5⟩
    rcases Nat.lt_or_ge (s + c) n with h | h
    · rcases h5 with h5 | h5
      · omega
      · exact Or.inl ⟨h1, h, h3, h4, h5⟩
    · have heq : s + c = n := by omega
      right
      have hs : s = p := blank_run_start_eq (t := n) (by omega) hplt
        (fun i hi1 hi2 => h3 i hi1 (by omega)) hpall h4 hpleft
      exact ⟨hs, by omega⟩
  · rintro (⟨h1, h2, h3, h4, h5⟩ | ⟨hs, hc⟩)
    · exact ⟨h1, by omega, h3, h4, Or.inr h5⟩
    · subst hs; subst hc
      refine ⟨by omega, by omega, ?_, hpleft, Or.inl (by omega)⟩
      intro i hi1 hi2
      exact hpall i hi1 (by omega)

theorem MaxRun_iff_flush_none {blank : Nat → Bool} {n : Nat}
    (hpn : PendingInv blank n none) (s c : Nat) :
    MaxRun blank n s c ↔ ClosedRun blank n s c := by
  unfold MaxRun ClosedRun
  constructor
  · rintro ⟨h1, h2, h3, h4, h5⟩
    have hlt : s + c < n := by
      rcases Nat.lt_or_ge (s + c) n with h | h
      · exact h
      · exfalso
        have heq : s + c = n := by omega
        have hn : n ≠ 0 := by omega
        rcases hpn with h0 | hfalse
        · exact hn h0
        · have := h3 (n - 1) (by omega) (by omega)
          rw [this] at hfalse
          cases hfalse
    refine ⟨h1, hlt, h3, h4, ?_⟩
    rcases h5 with h5 | h5
    · omega
    · exact h5
  · rintro ⟨h1, h2, h3, h4, h5⟩
    exact ⟨h1, by omega, h3, h4, Or.inr h5⟩

/-- The scanning walk computes exactly the maximal blank runs and the total
number of blank scanned blocks. -/
theorem scan_loop_spec (blank : Nat → Bool) (n : Nat) :
    ∀ (fuel idx : Nat) (plan : gap_plan_t) (blank_blocks : Nat)
      (pending : Option Nat), n - idx = fuel → idx ≤ n →
      ScanInv blank idx plan blank_blocks pending →
      (∀ r : gap_range_t,
          r ∈ (scan_loop blank n idx plan blank_blocks pending).1 ↔
            MaxRun blank n r.start_block r.block_count) ∧
      (scan_loop blank n idx plan blank_blocks pending).2 =
        (List.range n).countP blank := by
  intro fuel
  induction fuel with
  | zero =>
      intro idx plan blank_blocks pending hfuel hle hinv
      have hidx : idx = n := by omega
      subst hidx
      obtain ⟨hplan, hpend, hcount⟩ := hinv
      rw [scan_loop.eq_def]
      rw [dif_neg (by omega)]
      cases pending with
      | none =>
          refine ⟨?_, ?_⟩
          · intro r
            simp only
            rw [hplan r, MaxRun_iff_flush_none hpend]
          · simpa [scanBound] using hcount
      | some p =>
          obtain ⟨hplt, hpall, hpleft⟩ := hpend
          have hclose : gap_plan_add plan p (idx - p) = plan ++ [⟨p, idx - p⟩] :=
            gap_plan_add_close (fun r hr => (hplan r).mp hr)
              ⟨hplt, hpall, hpleft⟩ hplt
          refine ⟨?_, ?_⟩
          · intro r
            simp only
            rw [hclose, List.mem_append, hplan r,
              MaxRun_iff_flush_pending ⟨hplt, hpall, hpleft⟩]
            constructor
            · rintro (h | h)
              · exact Or.inl h
              · right
                have : r = (⟨p, idx - p⟩ : gap_range_t) := by simpa using h
                rw [this]
                exact ⟨rfl, rfl⟩
            · rintro (h | ⟨hs, hc⟩)
              · exact Or.inl h
              · right
                cases r
                simp only at hs hc
                subst hs; subst hc
                simp
          · simp only [scanBound] at hcount
            have hrange : (List.range idx).countP blank =
                (List.range p).countP blank + (idx - p) := by
              have := countP_range_blank_from blank p (idx - p)
                (fun i h1 h2 => hpall i h1 (by omega))
              rw [show p + (idx - p) = idx by omega] at this
              exact this
            simp only
            omega
  | succ f ihf =>
      intro idx plan blank_blocks pending hfuel hle hinv
      have hlt : idx < n := by omega
      obtain ⟨hplan, hpend, hcount⟩ := hinv
      rw [scan_loop.eq_def, dif_pos hlt]
      rcases hblank : blank idx with hfalse | htrue
      · -- non-blank block: close the pending run if any
        cases pending with
        | none =>
            refine ihf (idx + 1) plan blank_blocks none (by omega) (by omega)
              ⟨?_, ?_, ?_⟩
            · intro r
              rw [hplan r, ClosedRun_succ_of_nonblank_none hblank hpend]
            · exact Or.inr (by simpa using hblank)
            · simp only [scanBound] at hcount ⊢
              rw [countP_range_succ, hblank]
              simpa using hcount
        | some p =>
            obtain ⟨hplt, hpall, hpleft⟩ := hpend
            refine ihf (idx + 1) (gap_plan_add plan p (idx - p))
              (blank_blocks + (idx - p)) none (by omega) (by omega)
              ⟨?_, ?_, ?_⟩
            · intro r
              have hclose : gap_plan_add plan p (idx - p) =
                  plan ++ [⟨p, idx - p⟩] :=
                gap_plan_add_close (fun r hr => (hplan r).mp hr)
                  ⟨hplt, hpall, hpleft⟩ hplt
              rw [hclose, List.mem_append, hplan r,
                ClosedRun_succ_of_nonblank_pending hblank
                  ⟨hplt, hpall, hpleft⟩]
              constructor
              · rintro (h | h)
                · exact Or.inl h
                · right
                  have : r = (⟨p, idx - p⟩ : gap_range_t) := by simpa using h
                  rw [this]
                  exact ⟨rfl, rfl⟩
              · rintro (h | ⟨hs, hc⟩)
                · exact Or.inl h
                · right
                  cases r
                  simp only at hs hc
                  subst hs; subst hc
                  simp
            · exact Or.inr (by simpa using hblank)
            · simp only [scanBound] at hcount ⊢
              rw [countP_range_succ, hblank]
              have hrange : (List.range idx).countP blank =
                  (List.range p).countP blank + (idx - p) := by
                have := countP_range_blank_from blank p (idx - p)
                  (fun i h1 h2 => hpall i h1 (by omega))
                rw [show p + (idx - p) = idx by omega] at this
                exact this
              simp only [Bool.false_eq_true, if_false]
              omega
      · -- blank block: extend (or open) the pending run
        refine ihf (idx + 1) plan blank_blocks (some (pending.getD idx))
          (by omega) (by omega) ⟨?_, ?_, ?_⟩
        · intro r
          rw [hplan r, ClosedRun_succ_of_blank hblank]
        · cases pending with
          | none =>
              simp only [Option.getD]
              refine ⟨by omega, ?_, ?_⟩
              · intro i h1 h2
                have : i = idx := by omega
                rw [this]
                exact hblank
              · simpa [PendingInv] using hpend
          | some p =>
              obtain ⟨hplt, hpall, hpleft⟩ := hpend
              simp only [Option.getD]
              refine ⟨by omega, ?_, hpleft⟩
              intro i h1 h2
              rcases Nat.lt_or_ge i idx with h | h
              · exact hpall i h1 h
              · have : i = idx := by omega
                rw [this]
                exact hblank
        · cases pending with
          | none => simpa [scanBound] using hcount
          | some p => simpa [scanBound] using hcount

/-- The scanning walk preserves the ordered-disjoint plan invariant. -/
theorem scan_loop_ordered (blank : Nat → Bool) (n : Nat) :
    ∀ (fuel idx : Nat) (plan : gap_plan_t) (blank_blocks : Nat)
      (pending : Option Nat), n - idx = fuel → gap_plan_ordered plan →
      gap_plan_ordered (scan_loop blank n idx plan blank_blocks pending).1 := by
  intro fuel
  induction fuel with
  | zero =>
      intro idx plan blank_blocks pending hfuel hord
      rw [scan_loop.eq_def, dif_neg (by omega)]
      cases pending with
      | none => exact hord
      | some p => exact gap_plan_add_ordered hord p (n - p)
  | succ f ihf =>
      intro idx plan blank_blocks pending hfuel hord
      have hlt : idx < n := by omega
      rw [scan_loop.eq_def, dif_pos hlt]
      rcases blank idx with _ | _
      · cases pending with
        | none => exact ihf (idx + 1) plan blank_blocks none (by omega) hord
        | some p =>
            exact ihf (idx + 1) _ _ none (by omega)
              (gap_plan_add_ordered hord p (idx - p))
      · exact ihf (idx + 1) plan blank_blocks _ (by omega) hord

/-- The invariant holds at the start of the walk. -/
theorem ScanInv_start (blank : Nat → Bool) : ScanInv blank 0 [] 0 none := by
  refine ⟨?_, Or.inl rfl, by simp [scanBound]⟩
  intro r
  simp only [List.not_mem_nil, false_iff, ClosedRun]
  intro h
  omega

/-- Correctness of `gap_plan_contains` on ordered plans. -/
theorem gap_plan_contains_iff {plan : gap_plan_t}
    (h : gap_plan_ordered plan) (b : Nat) :
    gap_plan_contains plan b = true ↔
      ∃ r ∈ plan, r.start_block ≤ b ∧ b < r.start_block + r.block_count := by
  induction plan with
  | nil => simp [gap_plan_contains]
  | cons r rest ih =>
      rw [gap_plan_ordered, List.pairwise_cons] at h
      rw [gap_plan_contains]
      split
      · simp only [Bool.false_eq_true, false_iff]
        rintro ⟨r', hr', hle, hlt⟩
        rcases List.mem_cons.mp hr' with h' | h'
        · subst h'; omega
        · have := h.1 r' h'
          omega
      · split
        · simp only [true_iff]
          exact ⟨r, List.mem_cons_self r rest, by omega, by assumption⟩
        · rw [ih h.2]
          constructor
          · rintro ⟨r', hr', hle, hlt⟩
            exact ⟨r', List.mem_cons_of_mem r hr', hle, hlt⟩
          · rintro ⟨r', hr', hle, hlt⟩
            rcases List.mem_cons.mp hr' with h' | h'
            · subst h'; omega
            · exact ⟨r', h', hle, hlt⟩

/-- Every blank block has a leftmost blank block of its run. -/
theorem blank_run_left (blank : Nat → Bool) :
    ∀ b, blank b = true →
      ∃ s, s ≤ b ∧ (∀ i, s ≤ i → i ≤ b → blank i = true) ∧
        (s = 0 ∨ blank (s - 1) = false) := by
  intro b
  induction b with
  | zero =>
      intro hb
      refine ⟨0, le_refl 0, ?_, Or.inl rfl⟩
      intro i h1 h2
      have : i = 0 := by omega
      rw [this]; exact hb
  | succ m ih =>
      intro hb
      rcases hm : blank m with _ | _
      · exact ⟨m + 1, le_refl _, fun i h1 h2 => by
          have : i = m + 1 := by omega
          rw [this]; exact hb, Or.inr (by simpa using hm)⟩
      · obtain ⟨s, hs1, hs2, hs3⟩ := ih hm
        refine ⟨s, by omega, ?_, hs3⟩
        intro i h1 h2
        rcases Nat.lt_or_ge i (m + 1) with h | h
        · exact hs2 i h1 (by omega)
        · have : i = m + 1 := by omega
          rw [this]; exact hb

/-- Every blank block below `n` has a run end at or before `n`. -/
theorem blank_run_right (blank : Nat → Bool) (n : Nat) :
    ∀ (fuel b : Nat), n - b = fuel → b < n → blank b = true →
      ∃ e, b < e ∧ e ≤ n ∧ (∀ i, b ≤ i → i < e → blank i = true) ∧
        (e = n ∨ blank e = false) := by
  intro fuel
  induction fuel with
  | zero => intro b hfuel hb; omega
  | succ f ihf =>
      intro b hfuel hb hbl
      rcases Nat.lt_or_ge (b + 1) n with hlt | hge
      · rcases hnext : blank (b + 1) with _ | _
        · refine ⟨b + 1, by omega, by omega, ?_, Or.inr (by simpa using hnext)⟩
          intro i h1 h2
          have : i = b := by omega
          rw [this]; exact hbl
        · obtain ⟨e, he1, he2, he3, he4⟩ := ihf (b + 1) (by omega) hlt hnext
          refine ⟨e, by omega, he2, ?_, he4⟩
          intro i h1 h2
          rcases Nat.lt_or_ge i (b + 1) with h | h
          · have : i = b := by omega
            rw [this]; exact hbl
          · exact he3 i h h2
      · refine ⟨b + 1, by omega, by omega, ?_, Or.inl (by omega)⟩
        intro i h1 h2
        have : i = b := by omega
        rw [this]; exact hbl

/-- Every blank block below `n` lies inside some maximal blank run. -/
theorem exists_MaxRun {blank : Nat → Bool} {n b : Nat} (hb : b < n)
    (hbl : blank b = true) :
    ∃ s c, MaxRun blank n s c ∧ s ≤ b ∧ b < s + c := by
  obtain ⟨s, hs1, hs2, hs3⟩ := blank_run_left blank b hbl
  obtain ⟨e, he1, he2, he3, he4⟩ := blank_run_right blank n (n - b) b rfl hb hbl
  refine ⟨s, e - s, ⟨by omega, by omega, ?_, hs3, ?_⟩, hs1, by omega⟩
  · intro i h1 h2
    rcases Nat.lt_or_ge b i with h | h
    · exact he3 i (by omega) (by omega)
    · exact hs2 i h1 h
  · rcases he4 with h | h
    · left; omega
    · right
      have : s + (e - s) = e := by omega
      rw [this]; exact h

/-- Block-level coverage of a plan characterized by `MaxRun`: exactly the
blank scanned blocks are covered. -/
theorem maxrun_cover {blank : Nat → Bool} {n : Nat} {plan : gap_plan_t}
    (hiff : ∀ r : gap_range_t, r ∈ plan ↔
      MaxRun blank n r.start_block r.block_count) (b : Nat) :
    (∃ r ∈ plan, r.start_block ≤ b ∧ b < r.start_block + r.block_count) ↔
      (b < n ∧ blank b = true) := by
  constructor
  · rintro ⟨r, hr, hle, hlt⟩
    obtain ⟨h1, h2, h3, h4, h5⟩ := (hiff r).mp hr
    exact ⟨by omega, h3 b hle hlt⟩
  · rintro ⟨hb, hbl⟩
    obtain ⟨s, c, hmax, hs, hc⟩ := exists_MaxRun hb hbl
    exact ⟨⟨s, c⟩, (hiff ⟨s, c⟩).mpr hmax, hs, hc⟩

/-- **C3.** `scan_existing_file_for_gaps` with expected block count `E`
scans exactly `min (length / 2048) E` full blocks (bytes past the last full
block are ignored), counts a block as blank iff every one of its 2048 bytes
is 0x00, appends to the plan exactly the maximal runs of consecutive blank
scanned blocks as `{run_start, run_length}` (a still-open run being flushed
after the walk), and returns the total number of blank scanned blocks. -/
theorem C3_scan_existing_file_for_gaps (file : List Nat)
    (expected_blocks : Nat) :
    (scan_existing_file_for_gaps file expected_blocks).2.2 =
      file.length / DVD_VIDEO_LB_LEN ∧
    (∀ r : gap_range_t,
        r ∈ (scan_existing_file_for_gaps file expected_blocks).1 ↔
          MaxRun (blockBlank file)
            (min (file.length / DVD_VIDEO_LB_LEN) expected_blocks)
            r.start_block r.block_count) ∧
    (scan_existing_file_for_gaps file expected_blocks).2.1 =
      (List.range
          (min (file.length / DVD_VIDEO_LB_LEN) expected_blocks)).countP
        (blockBlank file) := by
  have hspec := scan_loop_spec (blockBlank file)
    (min (file.length / DVD_VIDEO_LB_LEN) expected_blocks)
    (min (file.length / DVD_VIDEO_LB_LEN) expected_blocks) 0 [] 0 none
    (Nat.sub_zero _) (Nat.zero_le _) (ScanInv_start _)
  exact ⟨rfl, hspec.1, hspec.2⟩

/-- The forward walk stops at `available_blocks` or outside all ranges. -/
theorem gap_walk_forward_spec (plan : gap_plan_t) (available_blocks : Nat) :
    ∀ (fuel forward : Nat), available_blocks - forward = fuel →
      available_blocks ≤ gap_walk_forward plan available_blocks forward ∨
        (gap_walk_forward plan available_blocks forward < available_blocks ∧
          gap_plan_contains plan
            (gap_walk_forward plan available_blocks forward) = false) := by
  intro fuel
  induction fuel with
  | zero =>
      intro forward hfuel
      rw [gap_walk_forward.eq_def]
      split
      · omega
      · rename_i hn
        rcases Nat.lt_or_ge forward available_blocks with h | h
        · right
          refine ⟨h, ?_⟩
          rcases hc : gap_plan_contains plan forward with _ | _
          · rfl
          · exact absurd (And.intro h hc) hn
        · exact Or.inl h
  | succ f ihf =>
      intro forward hfuel
      rw [gap_walk_forward.eq_def]
      split
      · exact ihf (forward + 1) (by omega)
      · rename_i hn
        rcases Nat.lt_or_ge forward available_blocks with h | h
        · right
          refine ⟨h, ?_⟩
          rcases hc : gap_plan_contains plan forward with _ | _
          · rfl
          · exact absurd (And.intro h hc) hn
        · exact Or.inl h

/-- The backward walk never moves up. -/
theorem gap_walk_backward_le (plan : gap_plan_t) :
    ∀ backward : Nat, gap_walk_backward plan backward ≤ backward := by
  intro backward
  induction backward using Nat.strong_induction_on with
  | _ b ih =>
      rw [gap_walk_backward.eq_def]
      split
      · rename_i hcond
        have hlt : b - 1 < b := by omega
        exact le_trans (ih (b - 1) hlt) (by omega)
      · exact le_rfl

/-- Any picked sample is in range and outside every gap range. -/
theorem gap_sample_pick_spec {plan : gap_plan_t}
    {available_blocks target i v : Nat} (havail : 0 < available_blocks)
    (hpick : gap_sample_pick plan available_blocks target i = some v) :
    v < available_blocks ∧ gap_plan_contains plan v = false := by
  unfold gap_sample_pick at hpick
  split at hpick
  · split at hpick
    · cases hpick
    · rename_i hcont
      have hv : gap_walk_backward plan
          (gap_sample_clamped available_blocks target i) = v := by
        injection hpick
      have hle := gap_walk_backward_le plan
        (gap_sample_clamped available_blocks target i)
      have hcl : gap_sample_clamped available_blocks target i <
          available_blocks := by
        unfold gap_sample_clamped
        split
        · omega
        · omega
      constructor
      · omega
      · rw [← hv]
        simpa using hcont
  · rename_i hfw
    have hv : gap_walk_forward plan available_blocks
        (gap_sample_candidate available_blocks target i) = v := by
      injection hpick
    rcases gap_walk_forward_spec plan available_blocks
        (available_blocks - gap_sample_candidate available_blocks target i)
        (gap_sample_candidate available_blocks target i) rfl with h | h
    · omega
    · rw [hv] at h
      exact ⟨by omega, h.2⟩

/-- Every block collected by the sampling loop is below `available_blocks`
and outside the plan, consecutive collected samples differ, and at most
`target - i` further samples are collected. -/
theorem gap_collect_samples_loop_spec (plan : gap_plan_t)
    (available_blocks target : Nat) (havail : 0 < available_blocks) :
    ∀ (fuel i : Nat) (samples : List Nat), target - i = fuel →
      (∀ x ∈ samples, x < available_blocks ∧
        gap_plan_contains plan x = false) →
      List.Chain' (fun a b => a ≠ b) samples →
      (∀ x ∈ gap_collect_samples_loop plan available_blocks target i samples,
          x < available_blocks ∧ gap_plan_contains plan x = false) ∧
      List.Chain' (fun a b => a ≠ b)
        (gap_collect_samples_loop plan available_blocks target i samples) ∧
      (gap_collect_samples_loop plan available_blocks target i
          samples).length ≤ samples.length + (target - i) := by
  intro fuel
  induction fuel with
  | zero =>
      intro i samples hfuel hmem hchain
      rw [gap_collect_samples_loop.eq_def, dif_neg (by omega)]
      exact ⟨hmem, hchain, by omega⟩
  | succ f ihf =>
      intro i samples hfuel hmem hchain
      have hlt : i < target := by omega
      rw [gap_collect_samples_loop.eq_def, dif_pos hlt]
      rcases hpick : gap_sample_pick plan available_blocks target i with _ | v
      · have hrest := ihf (i + 1) samples (by omega) hmem hchain
        exact ⟨hrest.1, hrest.2.1, le_trans hrest.2.2 (by omega)⟩
      · have hvP := gap_sample_pick_spec havail hpick
        simp only
        split
        · have hrest := ihf (i + 1) samples (by omega) hmem hchain
          exact ⟨hrest.1, hrest.2.1, le_trans hrest.2.2 (by omega)⟩
        · rename_i hlast
          have hmem' : ∀ x ∈ samples ++ [v], x < available_blocks ∧
              gap_plan_contains plan x = false := by
            intro x hx
            rcases List.mem_append.mp hx with h | h
            · exact hmem x h
            · have hx' : x = v := by simpa using h
              rw [hx']; exact hvP
          have hchain' : List.Chain' (fun a b => a ≠ b) (samples ++ [v]) := by
            rw [List.chain'_append]
            refine ⟨hchain, List.chain'_singleton v, ?_⟩
            intro x hx y hy
            have hy' : v = y := by simpa using hy
            intro hxy
            apply hlast
            rw [Option.mem_def] at hx
            rw [hx, hxy, ← hy']
          have hrest := ihf (i + 1) (samples ++ [v]) (by omega) hmem' hchain'
          refine ⟨hrest.1, hrest.2.1, ?_⟩
          have hlen := hrest.2.2
          simp only [List.length_append, List.length_singleton] at hlen
          omega

/-- **C9.** Verification sampling over `expected_blocks` blocks with an
ordered gap plan collects at most 32 sample indices, all in
`[0, expected_blocks)` and none contained in any range of the plan (sample
`i` starts at `floor((i+1) * expected_blocks / (T+1))` and walks forward,
then backward, as in `gap_sample_pick`); a result equal to the immediately
preceding collected sample is dropped, so consecutive samples differ. -/
theorem C9_gap_collect_samples (plan : gap_plan_t) (expected_blocks : Nat)
    (hord : gap_plan_ordered plan) :
    (gap_collect_samples plan expected_blocks GAP_SAMPLE_TARGET).length ≤
        GAP_SAMPLE_TARGET ∧
      (∀ x ∈ gap_collect_samples plan expected_blocks GAP_SAMPLE_TARGET,
          x < expected_blocks ∧
            ∀ r ∈ plan,
              ¬(r.start_block ≤ x ∧ x < r.start_block + r.block_count)) ∧
      List.Chain' (fun a b => a ≠ b)
        (gap_collect_samples plan expected_blocks GAP_SAMPLE_TARGET) := by
  unfold gap_collect_samples
  split
  · simp
  · rename_i hno
    have havail : 0 < expected_blocks := by
      rcases Nat.eq_zero_or_pos expected_blocks with h | h
      · exact absurd (Or.inl h) hno
      · exact h
    simp only
    set target :=
      if expected_blocks < GAP_SAMPLE_TARGET then expected_blocks
      else GAP_SAMPLE_TARGET with htarget
    have hspec := gap_collect_samples_loop_spec plan expected_blocks target
      havail target 0 [] (by omega) (by simp) List.chain'_nil
    refine ⟨?_, ?_, hspec.2.1⟩
    · have hlen := hspec.2.2
      have htle : target ≤ GAP_SAMPLE_TARGET := by
        rw [htarget]
        split
        · omega
        · exact le_rfl
      have hup : ([] : List Nat).length + (target - 0) ≤ GAP_SAMPLE_TARGET := by
        simpa using htle
      exact le_trans hlen hup
    · intro x hx
      have hxP := hspec.1 x hx
      refine ⟨hxP.1, ?_⟩
      intro r hr hcontra
      have hc : gap_plan_contains plan x = true :=
        (gap_plan_contains_iff hord x).mpr ⟨r, hr, hcontra.1, hcontra.2⟩
      rw [hxP.2] at hc
      cases hc

/-- Witness for C9 at a concrete ordered plan. -/
theorem C9_witness :
    gap_plan_ordered [⟨1, 2⟩] ∧
      ((gap_collect_samples [⟨1, 2⟩] 8 GAP_SAMPLE_TARGET).length ≤
          GAP_SAMPLE_TARGET ∧
        (∀ x ∈ gap_collect_samples [⟨1, 2⟩] 8 GAP_SAMPLE_TARGET,
            x < 8 ∧
              ∀ r ∈ ([⟨1, 2⟩] : gap_plan_t),
                ¬(r.start_block ≤ x ∧ x < r.start_block + r.block_count)) ∧
        List.Chain' (fun a b => a ≠ b)
          (gap_collect_samples [⟨1, 2⟩] 8 GAP_SAMPLE_TARGET)) :=
  ⟨by decide, C9_gap_collect_samples [⟨1, 2⟩] 8 (by decide)⟩

theorem gps_chunk_pos {block_count cursor : Nat} (h : cursor < block_count) :
    0 < gps_chunk block_count cursor := by
  unfold gps_chunk BUFFER_SIZE
  omega

theorem length_pwrite_bytes (file : List Nat) (off : Nat)
    (data : List Nat) :
    (pwrite_bytes file off data).length =
      max file.length (off + data.length) := by
  simp [pwrite_bytes]
  omega

theorem length_pwrite_padded (file : List Nat) (off : Nat) :
    ((file ++ List.replicate (off - file.length) 0).take off).length =
      off := by
  simp
  omega

theorem pwrite_padded_getElem? (file : List Nat) (off p : Nat) :
    (file ++ List.replicate (off - file.length) 0)[p]? =
      if p < file.length then file[p]?
      else if p < max file.length off then some 0 else none := by
  rcases Nat.lt_or_ge p file.length with h | h
  · rw [if_pos h, List.getElem?_append, if_pos h]
  · rw [if_neg (by omega), List.getElem?_append, if_neg (by omega),
      List.getElem?_replicate]
    rcases Nat.lt_or_ge p (max file.length off) with h2 | h2
    · rw [if_pos (by omega), if_pos h2]
    · rw [if_neg (by omega), if_neg (by omega)]

theorem pwrite_bytes_getElem?_lt {file : List Nat} {off : Nat}
    {data : List Nat} {p : Nat} (h : p < off) :
    (pwrite_bytes file off data)[p]? =
      if p < file.length then file[p]? else some 0 := by
  rw [pwrite_bytes, List.getElem?_append, length_pwrite_padded,
    if_pos h, List.getElem?_take, if_pos h, pwrite_padded_getElem?]
  split
  · rfl
  · rw [if_pos (by omega)]

theorem pwrite_bytes_getElem?_ge {file : List Nat} {off : Nat}
    {data : List Nat} {p : Nat} (h : off + data.length ≤ p) :
    (pwrite_bytes file off data)[p]? =
      if p < file.length then file[p]? else none := by
  rw [pwrite_bytes, List.getElem?_append, length_pwrite_padded,
    if_neg (by omega), List.getElem?_append, if_neg (by omega),
    List.getElem?_drop]
  have harg : off + data.length + (p - off - data.length) = p := by omega
  rw [harg, pwrite_padded_getElem?]
  split
  · rfl
  · rw [if_neg (by omega)]

theorem writes_within_refl (W : Nat → Prop) (hi : Nat) (file : List Nat) :
    writes_within W hi file file := by
  refine ⟨le_rfl, le_max_left _ _, ?_⟩
  intro p _
  rcases Nat.lt_or_ge p file.length with h | h
  · rw [if_pos h]
  · rw [if_neg (by omega), if_neg (by omega)]
    exact List.getElem?_eq_none h

theorem writes_within_trans {W : Nat → Prop} {hi : Nat}
    {f f' f'' : List Nat} (h1 : writes_within W hi f f')
    (h2 : writes_within W hi f' f'') : writes_within W hi f f'' := by
  obtain ⟨hl1, hu1, hp1⟩ := h1
  obtain ⟨hl2, hu2, hp2⟩ := h2
  refine ⟨le_trans hl1 hl2, by omega, ?_⟩
  intro p hW
  rw [hp2 p hW, hp1 p hW]
  rcases Nat.lt_or_ge p f.length with h | h
  · rw [if_pos (show p < f'.length by omega), if_pos h, if_pos h]
  · rw [if_neg (show ¬p < f.length by omega)]
    rcases Nat.lt_or_ge p f'.length with h' | h'
    · rw [if_pos h', if_neg (show ¬p < f.length by omega), if_pos h',
        if_pos (show p < f''.length by omega)]
    · rw [if_neg (show ¬p < f'.length by omega),
        if_neg (show ¬p < f.length by omega)]

theorem writes_within_mono {W W' : Nat → Prop} {hi : Nat}
    {f f' : List Nat} (hW : ∀ p, W p → W' p)
    (h : writes_within W hi f f') : writes_within W' hi f f' := by
  obtain ⟨hl, hu, hp⟩ := h
  exact ⟨hl, hu, fun p hW' => hp p (fun hw => hW' (hW p hw))⟩

/-- A single `pwrite` whose byte interval lies inside `W` and below `hi`. -/
theorem pwrite_bytes_writes_within {W : Nat → Prop} {hi : Nat}
    {file data : List Nat} {off : Nat}
    (hW : ∀ p, off ≤ p → p < off + data.length → W p)
    (hhi : off + data.length ≤ hi) :
    writes_within W hi file (pwrite_bytes file off data) := by
  refine ⟨?_, ?_, ?_⟩
  · rw [length_pwrite_bytes]
    omega
  · rw [length_pwrite_bytes]
    omega
  · intro p hWp
    have hout : p < off ∨ off + data.length ≤ p := by
      by_contra hc
      exact hWp (hW p (by omega) (by omega))
    rcases hout with h | h
    · rw [pwrite_bytes_getElem?_lt h, length_pwrite_bytes]
      split
      · rfl
      · rw [if_pos (by omega)]
    · rw [pwrite_bytes_getElem?_ge h, length_pwrite_bytes]
      split
      · rfl
      · rw [if_neg (by omega)]

theorem length_readData {disc : Nat → Block} (hdisc : DiscWF disc)
    (offset count : Nat) :
    (readData disc offset count).length = count * DVD_VIDEO_LB_LEN := by
  rw [readData, List.length_flatten, List.map_map]
  have hconst : (List.range count).map (List.length ∘ fun i =>
      disc (offset + i)) = List.replicate count DVD_VIDEO_LB_LEN := by
    have h1 : (List.range count).map (List.length ∘ fun i =>
        disc (offset + i)) = (List.range count).map
          (fun _ => DVD_VIDEO_LB_LEN) := by
      apply List.map_congr_left
      intro a _
      exact hdisc (offset + a)
    rw [h1, List.map_const']
    simp
  rw [hconst, List.sum_replicate, smul_eq_mul]

theorem DVD_VIDEO_LB_LEN_pos : 0 < DVD_VIDEO_LB_LEN := by
  unfold DVD_VIDEO_LB_LEN
  omega

theorem gps_usable_le {got : Nat → Nat → Int}
    (hgot : ∀ o n, got o n ≤ (n : Int))
    (dvd_offset segment_start block_count cursor : Nat) :
    gps_usable got dvd_offset segment_start block_count cursor ≤
      gps_chunk block_count cursor := by
  unfold gps_usable
  split
  · exact le_rfl
  · split
    · have := hgot (dvd_offset + (segment_start + cursor))
        (gps_chunk block_count cursor)
      omega
    · exact Nat.zero_le _

/-- One `gps_write` step: writes stay inside the segment's blocks and the
logged entry names a nonempty in-segment block range. -/
theorem gps_write_spec {disc : Nat → Block} {got : Nat → Nat → Int}
    (hdisc : DiscWF disc) (hgot : ∀ o n, got o n ≤ (n : Int))
    (dvd_offset segment_start block_count cursor : Nat)
    {Wb : Nat → Prop} {size : Nat}
    (hseg : ∀ b, segment_start ≤ b → b < segment_start + block_count →
      Wb b)
    (hsize : segment_start + block_count ≤ size)
    (hcur : cursor < block_count) (st : GapFillSt) :
    writes_within (fun p => Wb (p / DVD_VIDEO_LB_LEN))
        (size * DVD_VIDEO_LB_LEN) st.file
        (gps_write disc got dvd_offset segment_start block_count cursor
          st).file ∧
      ∀ e ∈ (gps_write disc got dvd_offset segment_start block_count
          cursor st).trace,
        e ∈ st.trace ∨
          (segment_start ≤ e.1 ∧
            e.1 + e.2 ≤ segment_start + block_count ∧ 0 < e.2) := by
  have husable := gps_usable_le hgot dvd_offset segment_start block_count
    cursor
  have hchunk : gps_chunk block_count cursor ≤ block_count - cursor :=
    min_le_left _ _
  have hend : segment_start + cursor +
      gps_usable got dvd_offset segment_start block_count cursor ≤
      segment_start + block_count := by omega
  unfold gps_write
  split
  · rename_i hpos
    constructor
    · apply pwrite_bytes_writes_within
      · intro p hp1 hp2
        rw [length_readData hdisc] at hp2
        have hLB := DVD_VIDEO_LB_LEN_pos
        have hdiv1 : segment_start + cursor ≤ p / DVD_VIDEO_LB_LEN :=
          (Nat.le_div_iff_mul_le hLB).mpr hp1
        have hdiv2 : p / DVD_VIDEO_LB_LEN <
            segment_start + cursor +
              gps_usable got dvd_offset segment_start block_count cursor :=
          (Nat.div_lt_iff_lt_mul hLB).mpr (by rw [Nat.add_mul]; omega)
        exact hseg _ (by omega) (by omega)
      · rw [length_readData hdisc, ← Nat.add_mul]
        exact Nat.mul_le_mul_right _ (by omega)
    · intro e he
      rcases List.mem_append.mp he with h | h
      · exact Or.inl h
      · right
        have he' : e = (segment_start + cursor,
            gps_usable got dvd_offset segment_start block_count cursor) := by
          simpa using h
        rw [he']
        refine ⟨?_, ?_, ?_⟩
        · show segment_start ≤ segment_start + cursor
          omega
        · show segment_start + cursor +
            gps_usable got dvd_offset segment_start block_count cursor ≤
              segment_start + block_count
          omega
        · exact hpos
  · exact ⟨writes_within_refl _ _ _, fun e he => Or.inl he⟩

/-- `gap_process_segment` only writes inside the segment's blocks (below
`size`), and every logged write names a nonempty in-segment range. -/
theorem gap_process_segment_spec {disc : Nat → Block}
    {got : Nat → Nat → Int} (hdisc : DiscWF disc)
    (hgot : ∀ o n, got o n ≤ (n : Int))
    (dvd_offset segment_start block_count : Nat)
    (errorstrat : read_error_strategy_t) {Wb : Nat → Prop} {size : Nat}
    (hseg : ∀ b, segment_start ≤ b → b < segment_start + block_count →
      Wb b)
    (hsize : segment_start + block_count ≤ size) :
    ∀ (fuel cursor : Nat) (st : GapFillSt), block_count - cursor = fuel →
      writes_within (fun p => Wb (p / DVD_VIDEO_LB_LEN))
        (size * DVD_VIDEO_LB_LEN) st.file
        (gap_process_segment disc got dvd_offset segment_start block_count
          errorstrat cursor st).2.file ∧
      ∀ e ∈ (gap_process_segment disc got dvd_offset segment_start
          block_count errorstrat cursor st).2.trace,
        e ∈ st.trace ∨
          (segment_start ≤ e.1 ∧
            e.1 + e.2 ≤ segment_start + block_count ∧ 0 < e.2) := by
  intro fuel
  induction fuel using Nat.strong_induction_on with
  | _ fuel ih => ?_
  intro cursor st hfuel
  rw [gap_process_segment.eq_def]
  rcases Nat.lt_or_ge cursor block_count with hcur | hcur
  · rw [dif_pos hcur]
    have hstep := gps_write_spec hdisc hgot dvd_offset segment_start
      block_count cursor hseg hsize hcur st
    have husable := gps_usable_le hgot dvd_offset segment_start
      block_count cursor
    have hchunkpos := gps_chunk_pos hcur
    have hcompose : ∀ (r : Nat × GapFillSt),
        (writes_within (fun p => Wb (p / DVD_VIDEO_LB_LEN))
            (size * DVD_VIDEO_LB_LEN)
            (gps_write disc got dvd_offset segment_start block_count
              cursor st).file r.2.file ∧
          ∀ e ∈ r.2.trace,
            e ∈ (gps_write disc got dvd_offset segment_start block_count
              cursor st).trace ∨
              (segment_start ≤ e.1 ∧
                e.1 + e.2 ≤ segment_start + block_count ∧ 0 < e.2)) →
        writes_within (fun p => Wb (p / DVD_VIDEO_LB_LEN))
            (size * DVD_VIDEO_LB_LEN) st.file r.2.file ∧
          ∀ e ∈ r.2.trace,
            e ∈ st.trace ∨
              (segment_start ≤ e.1 ∧
                e.1 + e.2 ≤ segment_start + block_count ∧ 0 < e.2) := by
      rintro r ⟨hw, ht⟩
      refine ⟨writes_within_trans hstep.1 hw, ?_⟩
      intro e he
      rcases ht e he with h | h
      · exact hstep.2 e h
      · exact Or.inr h
    split
    · -- partial read
      split
      · exact ⟨hstep.1, hstep.2⟩
      · rename_i hlt hrem
        match errorstrat with
        | .STRATEGY_ABORT => exact ⟨hstep.1, hstep.2⟩
        | .STRATEGY_SKIP_BLOCK =>
            exact hcompose _ (ih _ (by omega) _ _ rfl)
        | .STRATEGY_SKIP_MULTIBLOCK =>
            refine hcompose _ (ih _ ?_ _ _ rfl)
            split <;> omega
    · -- full read
      exact hcompose _ (ih _ (by omega) _ _ rfl)
  · rw [dif_neg (by omega)]
    exact ⟨writes_within_refl _ _ _, fun e he => Or.inl he⟩

/-- Sequential segment processing only writes inside the segments' blocks,
and logs only nonempty in-segment write ranges. -/
theorem process_segments_spec {disc : Nat → Block} {got : Nat → Nat → Int}
    (hdisc : DiscWF disc) (hgot : ∀ o n, got o n ≤ (n : Int))
    (dvd_offset : Nat) (errorstrat : read_error_strategy_t)
    {Wb : Nat → Prop} {size : Nat} :
    ∀ (segs : List (Nat × Nat)),
      (∀ s ∈ segs, (∀ b, s.1 ≤ b → b < s.1 + s.2 → Wb b) ∧
        s.1 + s.2 ≤ size) →
      ∀ st : GapFillSt,
        writes_within (fun p => Wb (p / DVD_VIDEO_LB_LEN))
          (size * DVD_VIDEO_LB_LEN) st.file
          (process_segments disc got dvd_offset errorstrat segs
            st).2.file ∧
        ∀ e ∈ (process_segments disc got dvd_offset errorstrat segs
            st).2.trace,
          e ∈ st.trace ∨
            ((∀ b, e.1 ≤ b → b < e.1 + e.2 → Wb b) ∧ e.1 + e.2 ≤ size ∧
              0 < e.2) := by
  intro segs
  induction segs with
  | nil =>
      intro _ st
      exact ⟨writes_within_refl _ _ _, fun e he => Or.inl he⟩
  | cons s rest ih =>
      intro hsegs st
      have hs := hsegs s (List.mem_cons_self s rest)
      have hseg := gap_process_segment_spec hdisc hgot dvd_offset s.1 s.2
        errorstrat hs.1 hs.2 (s.2 - 0) 0 st rfl
      rcases hres : gap_process_segment disc got dvd_offset s.1 s.2
        errorstrat 0 st with ⟨res, st'⟩
      rw [hres] at hseg
      have hseg_trace : ∀ e ∈ st'.trace, e ∈ st.trace ∨
          ((∀ b, e.1 ≤ b → b < e.1 + e.2 → Wb b) ∧ e.1 + e.2 ≤ size ∧
            0 < e.2) := by
        intro e he
        rcases hseg.2 e he with h | h
        · exact Or.inl h
        · right
          refine ⟨?_, by omega, h.2.2⟩
          intro b hb1 hb2
          exact (hs.1 b (by omega) (by omega))
      rw [process_segments, hres]
      cases res with
      | zero =>
          have hrest := ih (fun s' hs' =>
            hsegs s' (List.mem_cons_of_mem s hs')) st'
          refine ⟨writes_within_trans hseg.1 hrest.1, ?_⟩
          intro e he
          rcases hrest.2 e he with h | h
          · exact hseg_trace e h
          · exact Or.inr h
      | succ k => exact ⟨hseg.1, hseg_trace⟩

theorem range_segments_sub (range_start range_blocks : Nat) :
    ∀ (fuel produced : Nat), range_blocks - produced = fuel →
      ∀ s ∈ range_segments range_start range_blocks produced,
        range_start + produced ≤ s.1 ∧
          s.1 + s.2 ≤ range_start + range_blocks := by
  intro fuel
  induction fuel using Nat.strong_induction_on with
  | _ fuel ih => ?_
  intro produced hfuel s hs
  by_cases hlt : produced < range_blocks
  · rw [range_segments.eq_def, dif_pos hlt] at hs
    have hchunkpos : 0 < min (range_blocks - produced) BUFFER_SIZE := by
      unfold BUFFER_SIZE
      omega
    rcases List.mem_cons.mp hs with h | h
    · rw [h]
      constructor
      · simp
      · show range_start + produced +
          min (range_blocks - produced) BUFFER_SIZE ≤
            range_start + range_blocks
        omega
    · have := ih (range_blocks -
          (produced + min (range_blocks - produced) BUFFER_SIZE))
        (by omega) _ rfl s h
      omega
  · rw [range_segments.eq_def, dif_neg hlt] at hs
    cases hs

theorem reverse_segments_sub (range_start range_blocks : Nat) :
    ∀ (fuel processed : Nat), range_blocks - processed = fuel →
      ∀ s ∈ reverse_segments range_start range_blocks processed,
        range_start ≤ s.1 ∧ s.1 + s.2 ≤ range_start + range_blocks := by
  intro fuel
  induction fuel using Nat.strong_induction_on with
  | _ fuel ih => ?_
  intro processed hfuel s hs
  by_cases hlt : processed < range_blocks
  · rw [reverse_segments.eq_def, dif_pos hlt] at hs
    have hchunkpos : 0 < min (range_blocks - processed) BUFFER_SIZE := by
      unfold BUFFER_SIZE
      omega
    have hchunkle : min (range_blocks - processed) BUFFER_SIZE ≤
        range_blocks - processed := min_le_left _ _
    rcases List.mem_cons.mp hs with h | h
    · rw [h]
      constructor
      · show range_start ≤ range_start + range_blocks - processed -
          min (range_blocks - processed) BUFFER_SIZE
        omega
      · show range_start + range_blocks - processed -
            min (range_blocks - processed) BUFFER_SIZE +
            min (range_blocks - processed) BUFFER_SIZE ≤
              range_start + range_blocks
        omega
    · exact ih (range_blocks -
          (processed + min (range_blocks - processed) BUFFER_SIZE))
        (by omega) _ rfl s h
  · rw [reverse_segments.eq_def, dif_neg hlt] at hs
    cases hs

theorem outside_in_segments_sub (range_start : Nat) :
    ∀ (fuel front back : Nat) (use_front : Bool), back - front = fuel →
      ∀ s ∈ outside_in_segments range_start front back use_front,
        range_start + front ≤ s.1 ∧ s.1 + s.2 ≤ range_start + back := by
  intro fuel
  induction fuel using Nat.strong_induction_on with
  | _ fuel ih => ?_
  intro front back use_front hfuel s hs
  by_cases hlt : front < back
  · rw [outside_in_segments.eq_def, dif_pos hlt] at hs
    have hchunkpos : 0 < min (back - front) BUFFER_SIZE := by
      unfold BUFFER_SIZE
      omega
    have hchunkle : min (back - front) BUFFER_SIZE ≤ back - front :=
      min_le_left _ _
    rcases huse : use_front with _ | _
    · rw [huse] at hs
      simp only [Bool.false_eq_true, if_false] at hs
      rcases List.mem_cons.mp hs with h | h
      · rw [h]
        constructor
        · show range_start + front ≤
            range_start + (back - min (back - front) BUFFER_SIZE)
          omega
        · show range_start + (back - min (back - front) BUFFER_SIZE) +
            min (back - front) BUFFER_SIZE ≤ range_start + back
          omega
      · have := ih (back - min (back - front) BUFFER_SIZE - front)
          (by omega) front (back - min (back - front) BUFFER_SIZE) true
          rfl s h
        omega
    · rw [huse] at hs
      simp only [if_true] at hs
      rcases List.mem_cons.mp hs with h | h
      · rw [h]
        constructor
        · show range_start + front ≤ range_start + front
          omega
        · show range_start + front + min (back - front) BUFFER_SIZE ≤
            range_start + back
          omega
      · have := ih (back - (front + min (back - front) BUFFER_SIZE))
          (by omega) (front + min (back - front) BUFFER_SIZE) back false
          rfl s h
        omega
  · rw [outside_in_segments.eq_def, dif_neg hlt] at hs
    cases hs

theorem length_swapPair (l : List (Nat × Nat)) (a b : Nat) :
    (swapPair l a b).length = l.length := by
  simp [swapPair]

theorem mem_swapPair {l : List (Nat × Nat)} {a b : Nat} {x : Nat × Nat}
    (ha : a < l.length) (hb : b < l.length) (hx : x ∈ swapPair l a b) :
    x ∈ l := by
  unfold swapPair at hx
  rcases List.mem_or_eq_of_mem_set hx with h | h
  · rcases List.mem_or_eq_of_mem_set h with h' | h'
    · exact h'
    · rw [h', List.getD_eq_getElem?_getD, List.getElem?_eq_getElem hb]
      exact List.getElem_mem hb
  · rw [h, List.getD_eq_getElem?_getD, List.getElem?_eq_getElem ha]
    exact List.getElem_mem ha

theorem mem_shuffle_loop (rand : Nat → Nat) :
    ∀ (i : Nat) (segs : List (Nat × Nat)) (x : Nat × Nat),
      i ≤ segs.length → x ∈ shuffle_loop rand segs i → x ∈ segs := by
  intro i
  induction i using Nat.strong_induction_on with
  | _ i ih => ?_
  intro segs x hi hx
  rw [shuffle_loop.eq_def] at hx
  split at hx
  · rename_i hgt
    have hswaplen : (swapPair segs (i - 1) (rand i % i)).length =
        segs.length := length_swapPair _ _ _
    have hx' := ih (i - 1) (by omega) (swapPair segs (i - 1) (rand i % i))
      x (by omega) hx
    exact mem_swapPair (by omega) (by
      have := Nat.mod_lt (rand i) (show 0 < i by omega)
      omega) hx'
  · exact hx

theorem planBlocks_append (l1 l2 : gap_plan_t) (b : Nat) :
    planBlocks (l1 ++ l2) b ↔ planBlocks l1 b ∨ planBlocks l2 b := by
  unfold planBlocks
  constructor
  · rintro ⟨r, hr, h1, h2⟩
    rcases List.mem_append.mp hr with h | h
    · exact Or.inl ⟨r, h, h1, h2⟩
    · exact Or.inr ⟨r, h, h1, h2⟩
  · rintro (⟨r, hr, h1, h2⟩ | ⟨r, hr, h1, h2⟩)
    · exact ⟨r, List.mem_append.mpr (Or.inl hr), h1, h2⟩
    · exact ⟨r, List.mem_append.mpr (Or.inr hr), h1, h2⟩

/-- Coverage of `gap_plan_add` when the new start does not precede any
existing range's start: exactly the old coverage plus the new interval. -/
theorem planBlocks_gap_plan_add {plan : gap_plan_t} {start count : Nat}
    (h : ∀ r ∈ plan, r.start_block ≤ start) (b : Nat) :
    planBlocks (gap_plan_add plan start count) b ↔
      planBlocks plan b ∨ (start ≤ b ∧ b < start + count) := by
  unfold gap_plan_add
  split
  · rename_i hc
    constructor
    · exact Or.inl
    · rintro (hb | hb)
      · exact hb
      · omega
  · rename_i hc
    match hlast : plan.getLast? with
    | none =>
        have hnil : plan = [] := by
          cases plan with
          | nil => rfl
          | cons a l => simp at hlast
        subst hnil
        simp only [List.nil_append]
        unfold planBlocks
        constructor
        · rintro ⟨r, hr, h1, h2⟩
          have : r = (⟨start, count⟩ : gap_range_t) := by simpa using hr
          rw [this] at h1 h2
          exact Or.inr ⟨h1, h2⟩
        · rintro (⟨r, hr, _, _⟩ | ⟨h1, h2⟩)
          · cases hr
          · exact ⟨⟨start, count⟩, by simp, h1, h2⟩
    | some last =>
        have hsplit : plan.dropLast ++ [last] = plan :=
          List.dropLast_append_getLast? last (Option.mem_def.mpr hlast)
        have hlastmem : last ∈ plan := by
          rw [← hsplit]
          simp
        have hlast_le := h last hlastmem
        simp only
        have hplanb : planBlocks plan b ↔
            planBlocks plan.dropLast b ∨ planBlocks [last] b := by
          rw [← planBlocks_append, hsplit]
        split
        · rename_i hle
          split
          · rename_i hgrow
            rw [planBlocks_append, hplanb]
            constructor
            · rintro (hdrop | hin)
              · exact Or.inl (Or.inl hdrop)
              · obtain ⟨r, hr, h1, h2⟩ := hin
                have hr' : r = (⟨last.start_block,
                    start + count - last.start_block⟩ : gap_range_t) := by
                  simpa using hr
                rw [hr'] at h1 h2
                simp only at h1 h2
                rcases Nat.lt_or_ge b
                    (last.start_block + last.block_count) with hb | hb
                · exact Or.inl (Or.inr ⟨last, by simp, h1, hb⟩)
                · right
                  omega
            · rintro ((hdrop | hin) | hnew)
              · exact Or.inl hdrop
              · right
                obtain ⟨r, hr, h1, h2⟩ := hin
                have hr' : r = last := by simpa using hr
                rw [hr'] at h1 h2
                exact ⟨⟨last.start_block,
                  start + count - last.start_block⟩, by simp, h1, by
                    simp only
                    omega⟩
              · right
                exact ⟨⟨last.start_block,
                  start + count - last.start_block⟩, by simp, by
                    simp only
                    omega, by
                    simp only
                    omega⟩
          · rename_i hgrow
            constructor
            · exact Or.inl
            · rintro (hb | hb)
              · exact hb
              · exact ⟨last, hlastmem, by omega, by omega⟩
        · rename_i hgt
          rw [planBlocks_append]
          constructor
          · rintro (hb | hin)
            · exact Or.inl hb
            · obtain ⟨r, hr, h1, h2⟩ := hin
              have hr' : r = (⟨start, count⟩ : gap_range_t) := by
                simpa using hr
              rw [hr'] at h1 h2
              exact Or.inr ⟨h1, h2⟩
          · rintro (hb | ⟨h1, h2⟩)
            · exact Or.inl hb
            · exact Or.inr ⟨⟨start, count⟩, by simp, h1, h2⟩

/-- Range ends stay bounded through `gap_plan_add`. -/
theorem ends_le_gap_plan_add {plan : gap_plan_t} {start count m : Nat}
    (h : ∀ r ∈ plan, r.start_block + r.block_count ≤ m)
    (hnew : start + count ≤ m) :
    ∀ r ∈ gap_plan_add plan start count,
      r.start_block + r.block_count ≤ m := by
  intro r hr
  unfold gap_plan_add at hr
  split at hr
  · exact h r hr
  · match hlast : plan.getLast? with
    | none =>
        rw [hlast] at hr
        simp only at hr
        rcases List.mem_append.mp hr with h' | h'
        · exact h r h'
        · have : r = (⟨start, count⟩ : gap_range_t) := by simpa using h'
          rw [this]
          exact hnew
    | some last =>
        have hlastmem : last ∈ plan := by
          have hsplit : plan.dropLast ++ [last] = plan :=
            List.dropLast_append_getLast? last (Option.mem_def.mpr hlast)
          rw [← hsplit]
          simp
        rw [hlast] at hr
        simp only at hr
        split at hr
        · split at hr
          · rcases List.mem_append.mp hr with h' | h'
            · exact h r (List.dropLast_sublist plan |>.mem h')
            · have hr' : r = (⟨last.start_block,
                  start + count - last.start_block⟩ : gap_range_t) := by
                simpa using h'
              rw [hr']
              have := h last hlastmem
              simp only
              omega
          · exact h r hr
        · rcases List.mem_append.mp hr with h' | h'
          · exact h r h'
          · have : r = (⟨start, count⟩ : gap_range_t) := by simpa using h'
            rw [this]
            exact hnew

/-- `gap_fill_from_plan` only writes inside the plan's ranges, and logs
only nonempty write ranges inside the plan (below `size`). -/
theorem gap_fill_from_plan_spec {disc : Nat → Block} {got : Nat → Nat → Int}
    (hdisc : DiscWF disc) (hgot : ∀ o n, got o n ≤ (n : Int))
    (dvd_offset : Nat) (plan : gap_plan_t)
    (errorstrat : read_error_strategy_t) (gap_strategy : gap_strategy_t)
    (rand : Nat → Nat) {size : Nat}
    (hplan : ∀ r ∈ plan, r.start_block + r.block_count ≤ size)
    (st : GapFillSt) :
    writes_within (fun p => planBlocks plan (p / DVD_VIDEO_LB_LEN))
        (size * DVD_VIDEO_LB_LEN) st.file
        (gap_fill_from_plan disc got dvd_offset plan errorstrat
          gap_strategy rand st).2.file ∧
      ∀ e ∈ (gap_fill_from_plan disc got dvd_offset plan errorstrat
          gap_strategy rand st).2.trace,
        e ∈ st.trace ∨
          ((∀ b, e.1 ≤ b → b < e.1 + e.2 → planBlocks plan b) ∧
            e.1 + e.2 ≤ size ∧ 0 < e.2) := by
  have hrange_ok : ∀ r ∈ plan, ∀ s1 s2 : Nat,
      r.start_block ≤ s1 → s1 + s2 ≤ r.start_block + r.block_count →
      (∀ b, s1 ≤ b → b < s1 + s2 → planBlocks plan b) ∧ s1 + s2 ≤ size := by
    intro r hr s1 s2 h1 h2
    refine ⟨?_, le_trans h2 (hplan r hr)⟩
    intro b hb1 hb2
    exact ⟨r, hr, by omega, by omega⟩
  unfold gap_fill_from_plan
  split
  · exact ⟨writes_within_refl _ _ _, fun e he => Or.inl he⟩
  · match gap_strategy with
    | .GAP_STRATEGY_FORWARD =>
        apply process_segments_spec hdisc hgot
        intro s hs
        obtain ⟨r, hr, hmap⟩ := List.mem_map.mp hs
        have := hrange_ok r hr s.1 s.2 (by rw [← hmap]) (by rw [← hmap])
        exact this
    | .GAP_STRATEGY_REVERSE =>
        apply process_segments_spec hdisc hgot
        intro s hs
        obtain ⟨r, hr, hmem⟩ := List.mem_flatMap.mp hs
        have hsub := reverse_segments_sub r.start_block r.block_count
          r.block_count 0 (by omega) s hmem
        exact hrange_ok r hr s.1 s.2 hsub.1 hsub.2
    | .GAP_STRATEGY_OUTSIDE_IN =>
        apply process_segments_spec hdisc hgot
        intro s hs
        obtain ⟨r, hr, hmem⟩ := List.mem_flatMap.mp hs
        have hsub := outside_in_segments_sub r.start_block r.block_count 0
          r.block_count true (by omega) s hmem
        exact hrange_ok r hr s.1 s.2 (by
          have := hsub.1
          omega) hsub.2
    | .GAP_STRATEGY_RANDOM =>
        apply process_segments_spec hdisc hgot
        intro s hs
        have hmem := mem_shuffle_loop rand
          (gap_fill_segments plan).length (gap_fill_segments plan) s
          le_rfl hs
        obtain ⟨r, hr, hmem'⟩ := List.mem_flatMap.mp hmem
        have hsub := range_segments_sub r.start_block r.block_count
          r.block_count 0 (by omega) s hmem'
        exact hrange_ok r hr s.1 s.2 (by
          have := hsub.1
          omega) hsub.2

theorem eval_scan_nil : scan_existing_file_for_gaps [] 1 = ([], 0, 0) := by
  unfold scan_existing_file_for_gaps
  norm_num [DVD_VIDEO_LB_LEN]
  rw [scan_loop.eq_def]
  norm_num [scanBound]

theorem eval_blockBlank_ones :
    blockBlank (List.replicate 2048 1) 0 = false := by
  rw [blockBlank, blockBytes, DVD_VIDEO_LB_LEN]
  rw [List.drop_replicate, List.take_replicate]
  rw [buffer_is_blank, List.all_replicate]
  norm_num

theorem eval_scan_ones :
    scan_existing_file_for_gaps (List.replicate 2048 1) 1 = ([], 0, 1) := by
  unfold scan_existing_file_for_gaps
  norm_num [DVD_VIDEO_LB_LEN]
  rw [scan_loop.eq_def]
  norm_num [eval_blockBlank_ones]
  rw [scan_loop.eq_def]
  norm_num [scanBound]

theorem eval_plan_nil : fillgaps_plan [] 1 = [⟨0, 1⟩] := by
  unfold fillgaps_plan fillgaps_existing_blocks
  rw [eval_scan_nil]
  norm_num [gap_plan_add]

theorem eval_plan_ones : fillgaps_plan (List.replicate 2048 1) 1 = [] := by
  unfold fillgaps_plan fillgaps_existing_blocks
  rw [eval_scan_ones]
  norm_num

theorem eval_walk_forward_01 : gap_walk_forward [⟨0, 1⟩] 1 0 = 1 := by
  rw [gap_walk_forward.eq_def]
  norm_num [gap_plan_contains]
  rw [gap_walk_forward.eq_def]
  norm_num

theorem eval_walk_backward_01 : gap_walk_backward [⟨0, 1⟩] 0 = 0 := by
  rw [gap_walk_backward.eq_def]
  norm_num

theorem eval_samples_nil : fillgaps_samples [] 1 = [] := by
  unfold fillgaps_samples
  rw [eval_plan_nil]
  unfold gap_collect_samples GAP_SAMPLE_TARGET
  norm_num
  rw [gap_collect_samples_loop.eq_def]
  norm_num [gap_sample_pick, gap_sample_candidate, gap_sample_clamped,
    eval_walk_forward_01, eval_walk_backward_01, gap_plan_contains]
  rw [gap_collect_samples_loop.eq_def]
  norm_num

theorem eval_walk_forward_nilplan : gap_walk_forward [] 1 0 = 0 := by
  rw [gap_walk_forward.eq_def]
  norm_num [gap_plan_contains]

theorem eval_samples_ones :
    fillgaps_samples (List.replicate 2048 1) 1 = [0] := by
  unfold fillgaps_samples
  rw [eval_plan_ones]
  unfold gap_collect_samples GAP_SAMPLE_TARGET
  norm_num
  rw [gap_collect_samples_loop.eq_def]
  norm_num [gap_sample_pick, gap_sample_candidate, gap_sample_clamped,
    eval_walk_forward_nilplan, gap_plan_contains]
  rw [if_neg (by simp)]
  rw [gap_collect_samples_loop.eq_def]
  norm_num

theorem eval_readData_zero :
    readData (fun _ => zeroBlock) 0 1 = zeroBlock := by
  simp [readData]

theorem eval_pwrite_nil : pwrite_bytes [] 0 zeroBlock = zeroBlock := by
  simp [pwrite_bytes]

theorem eval_blockBytes_ones :
    blockBytes (List.replicate 2048 1) 0 = List.replicate 2048 1 := by
  rw [blockBytes, DVD_VIDEO_LB_LEN, Nat.zero_mul, List.drop_zero,
    List.take_replicate, Nat.min_self]

theorem eval_verify_ones_ok :
    gap_verify_samples (List.replicate 2048 1)
      (fun _ => List.replicate 2048 1) (fun _ n => (n : Int)) 0 [0] = 0 := by
  rw [gap_verify_samples]
  norm_num [eval_blockBytes_ones, DVD_VIDEO_LB_LEN]
  rw [gap_verify_samples]

theorem eval_verify_ones_zero_disc :
    gap_verify_samples (List.replicate 2048 1) (fun _ => zeroBlock)
      (fun _ n => (n : Int)) 0 [0] = 1 := by
  rw [gap_verify_samples]
  norm_num [eval_blockBytes_ones, DVD_VIDEO_LB_LEN, zeroBlock]

theorem eval_gps_write_nil_zero :
    gps_write (fun _ => zeroBlock) (fun _ n => (n : Int)) 0 0 1 0
      ⟨[], [], 0⟩ = ⟨zeroBlock, [(0, 1)], 1⟩ := by
  rw [gps_write]
  norm_num [gps_usable, gps_chunk, BUFFER_SIZE, eval_readData_zero,
    eval_pwrite_nil]

theorem eval_segment_nil_zero :
    gap_process_segment (fun _ => zeroBlock) (fun _ n => (n : Int)) 0 0 1
      .STRATEGY_ABORT 0 ⟨[], [], 0⟩ = (0, ⟨zeroBlock, [(0, 1)], 1⟩) := by
  rw [gap_process_segment.eq_def]
  norm_num [gps_usable, gps_chunk, BUFFER_SIZE]
  rw [eval_gps_write_nil_zero]
  rw [gap_process_segment.eq_def]
  norm_num

theorem eval_fill_nil_zero :
    gap_fill_from_plan (fun _ => zeroBlock) (fun _ n => (n : Int)) 0
      [⟨0, 1⟩] .STRATEGY_ABORT .GAP_STRATEGY_FORWARD (fun _ => 0)
      ⟨[], [], 0⟩ = (0, ⟨zeroBlock, [(0, 1)], 1⟩) := by
  rw [gap_fill_from_plan]
  norm_num [process_segments]
  rw [eval_segment_nil_zero]

theorem eval_pipeline_nil_zero :
    DVDCopyBlocksFillGaps (fun _ => zeroBlock) (fun _ n => (n : Int))
      (fun _ => 0) .GAP_STRATEGY_FORWARD [] 0 1 .STRATEGY_ABORT =
      ⟨0, zeroBlock, [(0, 1)], 1⟩ := by
  rw [DVDCopyBlocksFillGaps, eval_samples_nil]
  norm_num
  rw [eval_plan_nil, eval_fill_nil_zero]
  exact ⟨rfl, rfl, rfl, rfl⟩

theorem eval_pipeline_ones :
    DVDCopyBlocksFillGaps (fun _ => List.replicate 2048 1)
      (fun _ n => (n : Int)) (fun _ => 0) .GAP_STRATEGY_FORWARD
      (List.replicate 2048 1) 0 1 .STRATEGY_ABORT =
      ⟨0, List.replicate 2048 1, [], 0⟩ := by
  rw [DVDCopyBlocksFillGaps, eval_samples_ones, eval_verify_ones_ok]
  rw [if_neg (by norm_num)]
  rw [eval_plan_ones, gap_fill_from_plan]
  rfl

theorem eval_blankCount_zeroBlock : blankCount zeroBlock 1 = 1 := by
  have hb : blockBlank zeroBlock 0 = true := by
    rw [blockBlank, blockBytes, zeroBlock, DVD_VIDEO_LB_LEN]
    rw [Nat.zero_mul, List.drop_zero, List.take_replicate]
    rw [buffer_is_blank, List.all_replicate]
    norm_num
  have hl : zeroBlock.length = 2048 := by
    rw [zeroBlock, DVD_VIDEO_LB_LEN, List.length_replicate]
  rw [blankCount, hl, DVD_VIDEO_LB_LEN]
  norm_num [List.range_succ, List.countP_cons, List.countP_nil, hb]

theorem eval_blankCount_nil : blankCount [] 1 = 0 := by
  norm_num [blankCount, DVD_VIDEO_LB_LEN]

/-- The scan's plan, blank count and full-block count (shared form of the
`scan_loop` invariant's conclusion). -/
theorem scan_spec (file : List Nat) (E : Nat) :
    (∀ r : gap_range_t, r ∈ (scan_existing_file_for_gaps file E).1 ↔
        MaxRun (blockBlank file) (min (file.length / DVD_VIDEO_LB_LEN) E)
          r.start_block r.block_count) ∧
    (scan_existing_file_for_gaps file E).2.1 =
      (List.range (min (file.length / DVD_VIDEO_LB_LEN) E)).countP
        (blockBlank file) ∧
    (scan_existing_file_for_gaps file E).2.2 =
      file.length / DVD_VIDEO_LB_LEN := by
  have hspec := scan_loop_spec (blockBlank file)
    (min (file.length / DVD_VIDEO_LB_LEN) E)
    (min (file.length / DVD_VIDEO_LB_LEN) E) 0 [] 0 none
    (Nat.sub_zero _) (Nat.zero_le _) (ScanInv_start _)
  exact ⟨hspec.1, hspec.2, rfl⟩

theorem fillgaps_existing_eq (file : List Nat) (size : Nat) :
    fillgaps_existing_blocks file size =
      min (file.length / DVD_VIDEO_LB_LEN) size := by
  unfold fillgaps_existing_blocks
  rw [(scan_spec file size).2.2]

theorem fillgaps_plan_ends (file : List Nat) (size : Nat) :
    ∀ r ∈ fillgaps_plan file size,
      r.start_block + r.block_count ≤ size := by
  have hs := scan_spec file size
  have hscan : ∀ r ∈ (scan_existing_file_for_gaps file size).1,
      r.start_block + r.block_count ≤ size := by
    intro r hr
    have hm := ((hs.1 r).mp hr).2.1
    omega
  have hle : fillgaps_existing_blocks file size ≤ size := by
    rw [fillgaps_existing_eq]
    omega
  unfold fillgaps_plan
  split
  · exact ends_le_gap_plan_add hscan (by omega)
  · exact hscan

/-- Coverage of the refresh's plan: exactly the blank scanned blocks plus
the missing trailing range. -/
theorem fillgaps_plan_cover (file : List Nat) (size b : Nat) :
    planBlocks (fillgaps_plan file size) b ↔
      b < size ∧ (blockBlank file b = true ∨
        fillgaps_existing_blocks file size ≤ b) := by
  have hs := scan_spec file size
  have hex := fillgaps_existing_eq file size
  have hcov : planBlocks (scan_existing_file_for_gaps file size).1 b ↔
      (b < min (file.length / DVD_VIDEO_LB_LEN) size ∧
        blockBlank file b = true) := maxrun_cover hs.1 b
  unfold fillgaps_plan
  split
  · rename_i hlt
    rw [hex] at hlt
    have hstarts : ∀ r ∈ (scan_existing_file_for_gaps file size).1,
        r.start_block ≤ fillgaps_existing_blocks file size := by
      intro r hr
      have hm := (hs.1 r).mp hr
      have h1 := hm.1
      have h2 := hm.2.1
      rw [hex]
      omega
    rw [planBlocks_gap_plan_add hstarts b, hcov, hex]
    constructor
    · rintro (⟨h1, h2⟩ | ⟨h1, h2⟩)
      · exact ⟨by omega, Or.inl h2⟩
      · exact ⟨by omega, Or.inr h1⟩
    · rintro ⟨h1, h2 | h2⟩
      · rcases Nat.lt_or_ge b (min (file.length / DVD_VIDEO_LB_LEN) size)
          with h | h
        · exact Or.inl ⟨h, h2⟩
        · exact Or.inr ⟨h, by omega⟩
      · exact Or.inr ⟨h2, by omega⟩
  · rename_i hge
    rw [hcov, hex] at *
    rw [hex]
    constructor
    · rintro ⟨h1, h2⟩
      exact ⟨by omega, Or.inl h2⟩
    · rintro ⟨h1, h2 | h2⟩
      · exact ⟨by omega, h2⟩
      · exact absurd h1 (by omega)

/-- `DVDCopyBlocksFillGaps` as an `if` between the verify-failure record
and the refill's outcome record. -/
theorem DVDCopyBlocksFillGaps_eq (disc : Nat → Block)
    (got : Nat → Nat → Int) (rand : Nat → Nat)
    (gap_strategy : gap_strategy_t) (file : List Nat)
    (dvd_offset size : Nat) (errorstrat : read_error_strategy_t) :
    DVDCopyBlocksFillGaps disc got rand gap_strategy file dvd_offset size
        errorstrat =
      if 0 < (fillgaps_samples file size).length ∧
          gap_verify_samples file disc got dvd_offset
            (fillgaps_samples file size) ≠ 0 then
        ⟨1, file, [], 0⟩
      else
        ⟨(gap_fill_from_plan disc got dvd_offset (fillgaps_plan file size)
            errorstrat gap_strategy rand ⟨file, [], 0⟩).1,
          (gap_fill_from_plan disc got dvd_offset (fillgaps_plan file size)
            errorstrat gap_strategy rand ⟨file, [], 0⟩).2.file,
          (gap_fill_from_plan disc got dvd_offset (fillgaps_plan file size)
            errorstrat gap_strategy rand ⟨file, [], 0⟩).2.trace,
          (gap_fill_from_plan disc got dvd_offset (fillgaps_plan file size)
            errorstrat gap_strategy rand ⟨file, [], 0⟩).2.filled⟩ := by
  unfold DVDCopyBlocksFillGaps
  split
  · rfl
  · rfl

/-- A mismatching sample makes `gap_verify_samples` report failure. -/
theorem gap_verify_samples_ne_zero {file : List Nat} {disc : Nat → Block}
    {got : Nat → Nat → Int} {dvd_offset s : Nat} (samples : List Nat)
    (hs : s ∈ samples) (hne : disc (dvd_offset + s) ≠ blockBytes file s) :
    gap_verify_samples file disc got dvd_offset samples ≠ 0 := by
  induction samples with
  | nil => exact absurd hs (List.not_mem_nil s)
  | cons b rest ih =>
      simp only [gap_verify_samples]
      split
      · exact one_ne_zero
      split
      · exact one_ne_zero
      split
      · exact one_ne_zero
      rename_i h3
      rcases List.mem_cons.mp hs with hb | hb
      · subst hb
        exact absurd (not_not.mp h3) hne
      · exact ih hb

/-- Blocks whose 2048 bytes agree position-for-position have equal
`blockBytes`. -/
theorem blockBytes_congr {f f' : List Nat} {b : Nat}
    (h : ∀ j, j < DVD_VIDEO_LB_LEN →
      f'[b * DVD_VIDEO_LB_LEN + j]? = f[b * DVD_VIDEO_LB_LEN + j]?) :
    blockBytes f' b = blockBytes f b := by
  unfold blockBytes
  apply List.ext_getElem?
  intro j
  rw [List.getElem?_take, List.getElem?_take]
  rcases Nat.lt_or_ge j DVD_VIDEO_LB_LEN with hj | hj
  · rw [if_pos hj, if_pos hj, List.getElem?_drop, List.getElem?_drop]
    exact h j hj
  · rw [if_neg (by omega), if_neg (by omega)]

/-- Blank count plus missing count, as one `countP` over the expected
range. -/
theorem blankMissing_count (f : List Nat) (size : Nat) :
    blankCount f size + missingCount f size =
      (List.range size).countP
        (fun b =>
          decide (min (f.length / DVD_VIDEO_LB_LEN) size ≤ b) ||
            blockBlank f b) := by
  rw [blankCount, missingCount]
  set m := min (f.length / DVD_VIDEO_LB_LEN) size with hm
  have hms : m ≤ size := by omega
  have hsz : size = m + (size - m) := by omega
  conv_rhs => rw [hsz, List.range_add]
  rw [List.countP_append, List.countP_map]
  have h1 : (List.range m).countP
      (fun b => decide (m ≤ b) || blockBlank f b) =
      (List.range m).countP (blockBlank f) := by
    apply List.countP_congr
    intro b hb
    have hb' := List.mem_range.mp hb
    simp only [Bool.or_eq_true, decide_eq_true_eq]
    constructor
    · rintro (h | h)
      · omega
      · exact h
    · exact Or.inr
  have h2 : (List.range (size - m)).countP
      ((fun b => decide (m ≤ b) || blockBlank f b) ∘ fun x => m + x) =
      size - m := by
    have hall : ∀ a ∈ List.range (size - m),
        ((fun b => decide (m ≤ b) || blockBlank f b) ∘ fun x => m + x) a
          = true := by
      intro a ha
      simp
    rw [List.countP_eq_length.mpr hall, List.length_range]
  rw [h1, h2]

/-- A refill whose writes stay inside the refresh plan cannot create a new
blank or missing block inside the expected range. -/
theorem blankMissing_mono (f f' : List Nat) (size : Nat)
    (hW : writes_within
      (fun p => planBlocks (fillgaps_plan f size) (p / DVD_VIDEO_LB_LEN))
      (size * DVD_VIDEO_LB_LEN) f f') :
    blankCount f' size + missingCount f' size ≤
      blankCount f size + missingCount f size := by
  have hpos := DVD_VIDEO_LB_LEN_pos
  have hlen : f.length ≤ f'.length := hW.1
  rw [blankMissing_count, blankMissing_count]
  apply List.countP_mono_left
  intro b hb
  have hbsz := List.mem_range.mp hb
  simp only [Bool.or_eq_true, decide_eq_true_eq]
  intro hcase
  by_contra hcon
  push_neg at hcon
  obtain ⟨hlt, hnb⟩ := hcon
  have hltm : b < min (f.length / DVD_VIDEO_LB_LEN) size := by omega
  have hnb' : blockBlank f b = false := by
    cases hx : blockBlank f b
    · rfl
    · exact absurd hx hnb
  have hnotplan : ¬ planBlocks (fillgaps_plan f size) b := by
    intro hp
    have hc := (fillgaps_plan_cover f size b).mp hp
    rw [fillgaps_existing_eq] at hc
    rcases hc.2 with hbl | hex
    · rw [hnb'] at hbl
      exact Bool.false_ne_true hbl
    · omega
  have hblock : (b + 1) * DVD_VIDEO_LB_LEN ≤ f.length := by
    have hbf : b + 1 ≤ f.length / DVD_VIDEO_LB_LEN := by omega
    exact (Nat.le_div_iff_mul_le hpos).mp hbf
  have hpres : ∀ j, j < DVD_VIDEO_LB_LEN →
      f'[b * DVD_VIDEO_LB_LEN + j]? = f[b * DVD_VIDEO_LB_LEN + j]? := by
    intro j hj
    have hdiv : (b * DVD_VIDEO_LB_LEN + j) / DVD_VIDEO_LB_LEN = b := by
      rw [Nat.mul_comm, Nat.mul_add_div hpos, Nat.div_eq_of_lt hj,
        Nat.add_zero]
    have hnW : ¬ planBlocks (fillgaps_plan f size)
        ((b * DVD_VIDEO_LB_LEN + j) / DVD_VIDEO_LB_LEN) := by
      rw [hdiv]
      exact hnotplan
    have := hW.2.2 (b * DVD_VIDEO_LB_LEN + j) hnW
    rw [this, if_pos (by nlinarith [hblock])]
  have hbytes : blockBytes f' b = blockBytes f b := blockBytes_congr hpres
  have hblank : blockBlank f' b = blockBlank f b := by
    unfold blockBlank
    rw [hbytes]
  have hdivle : f.length / DVD_VIDEO_LB_LEN ≤
      f'.length / DVD_VIDEO_LB_LEN := Nat.div_le_div_right hlen
  rcases hcase with hge | hbl
  · omega
  · rw [hblank, hnb'] at hbl
    exact Bool.false_ne_true hbl

theorem zeroBlock_ne_ones : zeroBlock ≠ List.replicate 2048 1 := by
  intro h
  have h0 : zeroBlock[0]? = (List.replicate 2048 (1 : Nat))[0]? := by
    rw [h]
  rw [zeroBlock, DVD_VIDEO_LB_LEN, List.getElem?_replicate,
    List.getElem?_replicate, if_pos (by omega), if_pos (by omega)] at h0
  exact absurd (Option.some.inj h0) (by omega)

/-- **C4.** If any collected verification sample's disc block differs from
the file's block at the same absolute index, the refresh fails (result 1)
and issues no write: the file and the write trace are untouched. -/
theorem C4_verify_mismatch_fails (disc : Nat → Block)
    (got : Nat → Nat → Int) (rand : Nat → Nat)
    (gap_strategy : gap_strategy_t) (file : List Nat)
    (dvd_offset size : Nat) (errorstrat : read_error_strategy_t) (s : Nat)
    (hs : s ∈ fillgaps_samples file size)
    (hne : disc (dvd_offset + s) ≠ blockBytes file s) :
    (DVDCopyBlocksFillGaps disc got rand gap_strategy file dvd_offset size
        errorstrat).result = 1 ∧
      (DVDCopyBlocksFillGaps disc got rand gap_strategy file dvd_offset
          size errorstrat).file = file ∧
      (DVDCopyBlocksFillGaps disc got rand gap_strategy file dvd_offset
          size errorstrat).trace = [] := by
  have hc : 0 < (fillgaps_samples file size).length ∧
      gap_verify_samples file disc got dvd_offset
        (fillgaps_samples file size) ≠ 0 :=
    ⟨List.length_pos.mpr (List.ne_nil_of_mem hs),
      gap_verify_samples_ne_zero _ hs hne⟩
  rw [DVDCopyBlocksFillGaps_eq, if_pos hc]
  exact ⟨rfl, rfl, rfl⟩

theorem C4_witness :
    (0 ∈ fillgaps_samples (List.replicate 2048 1) 1) ∧
    ((fun _ : Nat => zeroBlock) (0 + 0) ≠
      blockBytes (List.replicate 2048 1) 0) ∧
    ((DVDCopyBlocksFillGaps (fun _ => zeroBlock) (fun _ n => (n : Int))
        (fun _ => 0) .GAP_STRATEGY_FORWARD (List.replicate 2048 1) 0 1
        .STRATEGY_ABORT).result = 1 ∧
      (DVDCopyBlocksFillGaps (fun _ => zeroBlock) (fun _ n => (n : Int))
          (fun _ => 0) .GAP_STRATEGY_FORWARD (List.replicate 2048 1) 0 1
          .STRATEGY_ABORT).file = List.replicate 2048 1 ∧
      (DVDCopyBlocksFillGaps (fun _ => zeroBlock) (fun _ n => (n : Int))
          (fun _ => 0) .GAP_STRATEGY_FORWARD (List.replicate 2048 1) 0 1
          .STRATEGY_ABORT).trace = []) := by
  have hmem : 0 ∈ fillgaps_samples (List.replicate 2048 1) 1 := by
    rw [eval_samples_ones]
    exact List.mem_singleton.mpr rfl
  have hne : (fun _ : Nat => zeroBlock) (0 + 0) ≠
      blockBytes (List.replicate 2048 1) 0 := by
    rw [eval_blockBytes_ones]
    exact zeroBlock_ne_ones
  exact ⟨hmem, hne,
    C4_verify_mismatch_fails (fun _ => zeroBlock) (fun _ n => (n : Int))
      (fun _ => 0) .GAP_STRATEGY_FORWARD (List.replicate 2048 1) 0 1
      .STRATEGY_ABORT 0 hmem hne⟩

/-- **C5** (counterexample). A successful refresh of an empty file against
an all-zero disc (expected size one block) raises the blank-block count
from 0 to 1: the claimed blank-count monotonicity fails. -/
theorem C5_counterexample :
    (DVDCopyBlocksFillGaps (fun _ => zeroBlock) (fun _ n => (n : Int))
        (fun _ => 0) .GAP_STRATEGY_FORWARD [] 0 1
        .STRATEGY_ABORT).result = 0 ∧
    ¬ (blankCount (DVDCopyBlocksFillGaps (fun _ => zeroBlock)
          (fun _ n => (n : Int)) (fun _ => 0) .GAP_STRATEGY_FORWARD [] 0 1
          .STRATEGY_ABORT).file 1 ≤ blankCount [] 1) := by
  rw [eval_pipeline_nil_zero]
  refine ⟨rfl, ?_⟩
  show ¬ (blankCount zeroBlock 1 ≤ blankCount [] 1)
  rw [eval_blankCount_zeroBlock, eval_blankCount_nil]
  omega

/-- **C5** (amended). After a successful refresh the combined count of
blank and missing blocks in the expected range never increases, and the
file never shrinks. -/
theorem C5_refresh_blank_missing (disc : Nat → Block)
    (got : Nat → Nat → Int) (rand : Nat → Nat)
    (gap_strategy : gap_strategy_t) (file : List Nat)
    (dvd_offset size : Nat) (errorstrat : read_error_strategy_t)
    (hdisc : DiscWF disc) (hgot : ∀ o n, got o n ≤ (n : Int))
    (hres : (DVDCopyBlocksFillGaps disc got rand gap_strategy file
        dvd_offset size errorstrat).result = 0) :
    blankCount (DVDCopyBlocksFillGaps disc got rand gap_strategy file
          dvd_offset size errorstrat).file size +
        missingCount (DVDCopyBlocksFillGaps disc got rand gap_strategy
          file dvd_offset size errorstrat).file size ≤
      blankCount file size + missingCount file size ∧
    file.length ≤ (DVDCopyBlocksFillGaps disc got rand gap_strategy file
      dvd_offset size errorstrat).file.length := by
  by_cases hcond : 0 < (fillgaps_samples file size).length ∧
      gap_verify_samples file disc got dvd_offset
        (fillgaps_samples file size) ≠ 0
  · have hfi : (DVDCopyBlocksFillGaps disc got rand gap_strategy file
        dvd_offset size errorstrat).file = file := by
      rw [DVDCopyBlocksFillGaps_eq, if_pos hcond]
    rw [hfi]
    exact ⟨le_rfl, le_rfl⟩
  · have hfi : (DVDCopyBlocksFillGaps disc got rand gap_strategy file
        dvd_offset size errorstrat).file =
        (gap_fill_from_plan disc got dvd_offset (fillgaps_plan file size)
          errorstrat gap_strategy rand ⟨file, [], 0⟩).2.file := by
      rw [DVDCopyBlocksFillGaps_eq, if_neg hcond]
    have hspec := gap_fill_from_plan_spec hdisc hgot dvd_offset
      (fillgaps_plan file size) errorstrat gap_strategy rand
      (fillgaps_plan_ends file size) ⟨file, [], 0⟩
    rw [hfi]
    exact ⟨blankMissing_mono file _ size hspec.1, hspec.1.1⟩

theorem C5_witness :
    DiscWF (fun _ => List.replicate 2048 1) ∧
    (∀ o n : Nat, (fun _ n : Nat => (n : Int)) o n ≤ (n : Int)) ∧
    (DVDCopyBlocksFillGaps (fun _ => List.replicate 2048 1)
        (fun _ n => (n : Int)) (fun _ => 0) .GAP_STRATEGY_FORWARD
        (List.replicate 2048 1) 0 1 .STRATEGY_ABORT).result = 0 ∧
    (blankCount (DVDCopyBlocksFillGaps (fun _ => List.replicate 2048 1)
          (fun _ n => (n : Int)) (fun _ => 0) .GAP_STRATEGY_FORWARD
          (List.replicate 2048 1) 0 1 .STRATEGY_ABORT).file 1 +
        missingCount (DVDCopyBlocksFillGaps
          (fun _ => List.replicate 2048 1) (fun _ n => (n : Int))
          (fun _ => 0) .GAP_STRATEGY_FORWARD (List.replicate 2048 1) 0 1
          .STRATEGY_ABORT).file 1 ≤
      blankCount (List.replicate 2048 1) 1 +
        missingCount (List.replicate 2048 1) 1 ∧
      (List.replicate 2048 (1 : Nat)).length ≤
        (DVDCopyBlocksFillGaps (fun _ => List.replicate 2048 1)
          (fun _ n => (n : Int)) (fun _ => 0) .GAP_STRATEGY_FORWARD
          (List.replicate 2048 1) 0 1 .STRATEGY_ABORT).file.length) := by
  have hd : DiscWF (fun _ => List.replicate 2048 1) := fun b => by
    rw [List.length_replicate, DVD_VIDEO_LB_LEN]
  have hg : ∀ o n : Nat, (fun _ n : Nat => (n : Int)) o n ≤ (n : Int) :=
    fun o n => le_refl _
  have hr : (DVDCopyBlocksFillGaps (fun _ => List.replicate 2048 1)
      (fun _ n => (n : Int)) (fun _ => 0) .GAP_STRATEGY_FORWARD
      (List.replicate 2048 1) 0 1 .STRATEGY_ABORT).result = 0 := by
    rw [eval_pipeline_ones]
  exact ⟨hd, hg, hr,
    C5_refresh_blank_missing (fun _ => List.replicate 2048 1)
      (fun _ n => (n : Int)) (fun _ => 0) .GAP_STRATEGY_FORWARD
      (List.replicate 2048 1) 0 1 .STRATEGY_ABORT hd hg hr⟩

/-- **C10.** In refresh mode every logged write range lies inside the
computed gap plan — blank blocks or blocks at or past the previous end of
the file, all below the expected count — and every byte of a non-blank
existing block, as well as every byte at or past `size * 2048` (the
truncate being skipped), is unchanged. -/
theorem C10_fillgaps_frame (disc : Nat → Block) (got : Nat → Nat → Int)
    (rand : Nat → Nat) (gap_strategy : gap_strategy_t) (file : List Nat)
    (dvd_offset size : Nat) (errorstrat : read_error_strategy_t)
    (hdisc : DiscWF disc) (hgot : ∀ o n, got o n ≤ (n : Int)) :
    (∀ e ∈ (DVDCopyBlocksFillGaps disc got rand gap_strategy file
          dvd_offset size errorstrat).trace,
        ∀ b, e.1 ≤ b → b < e.1 + e.2 →
          planBlocks (fillgaps_plan file size) b ∧ b < size ∧
            (blockBlank file b = true ∨
              fillgaps_existing_blocks file size ≤ b)) ∧
      ∀ p, p < file.length →
        ((p / DVD_VIDEO_LB_LEN < fillgaps_existing_blocks file size ∧
            blockBlank file (p / DVD_VIDEO_LB_LEN) = false) ∨
          size * DVD_VIDEO_LB_LEN ≤ p) →
        (DVDCopyBlocksFillGaps disc got rand gap_strategy file dvd_offset
            size errorstrat).file[p]? = file[p]? := by
  have hpos := DVD_VIDEO_LB_LEN_pos
  have hnW : ∀ p, p < file.length →
      ((p / DVD_VIDEO_LB_LEN < fillgaps_existing_blocks file size ∧
          blockBlank file (p / DVD_VIDEO_LB_LEN) = false) ∨
        size * DVD_VIDEO_LB_LEN ≤ p) →
      ¬ planBlocks (fillgaps_plan file size) (p / DVD_VIDEO_LB_LEN) := by
    intro p hp hcase hplan
    have hcov := (fillgaps_plan_cover file size
      (p / DVD_VIDEO_LB_LEN)).mp hplan
    rcases hcase with ⟨hlt, hnb⟩ | hge
    · rcases hcov.2 with hbl | hex
      · rw [hnb] at hbl
        exact Bool.false_ne_true hbl
      · omega
    · have hsz : size ≤ p / DVD_VIDEO_LB_LEN :=
        (Nat.le_div_iff_mul_le hpos).mpr hge
      have := hcov.1
      omega
  by_cases hcond : 0 < (fillgaps_samples file size).length ∧
      gap_verify_samples file disc got dvd_offset
        (fillgaps_samples file size) ≠ 0
  · have htr : (DVDCopyBlocksFillGaps disc got rand gap_strategy file
        dvd_offset size errorstrat).trace = [] := by
      rw [DVDCopyBlocksFillGaps_eq, if_pos hcond]
    have hfi : (DVDCopyBlocksFillGaps disc got rand gap_strategy file
        dvd_offset size errorstrat).file = file := by
      rw [DVDCopyBlocksFillGaps_eq, if_pos hcond]
    rw [htr, hfi]
    exact ⟨fun e he => absurd he (List.not_mem_nil e),
      fun p _ _ => rfl⟩
  · have htr : (DVDCopyBlocksFillGaps disc got rand gap_strategy file
        dvd_offset size errorstrat).trace =
        (gap_fill_from_plan disc got dvd_offset (fillgaps_plan file size)
          errorstrat gap_strategy rand ⟨file, [], 0⟩).2.trace := by
      rw [DVDCopyBlocksFillGaps_eq, if_neg hcond]
    have hfi : (DVDCopyBlocksFillGaps disc got rand gap_strategy file
        dvd_offset size errorstrat).file =
        (gap_fill_from_plan disc got dvd_offset (fillgaps_plan file size)
          errorstrat gap_strategy rand ⟨file, [], 0⟩).2.file := by
      rw [DVDCopyBlocksFillGaps_eq, if_neg hcond]
    have hspec := gap_fill_from_plan_spec hdisc hgot dvd_offset
      (fillgaps_plan file size) errorstrat gap_strategy rand
      (fillgaps_plan_ends file size) ⟨file, [], 0⟩
    rw [htr, hfi]
    constructor
    · intro e he b hb1 hb2
      rcases hspec.2 e he with h0 | ⟨hin, _, _⟩
      · exact absurd h0 (List.not_mem_nil e)
      · have hpb := hin b hb1 hb2
        have hc := (fillgaps_plan_cover file size b).mp hpb
        exact ⟨hpb, hc.1, hc.2⟩
    · intro p hp hcase
      have h3 := hspec.1.2.2 p (hnW p hp hcase)
      rw [h3, if_pos hp]

theorem C10_witness :
    DiscWF (fun _ => zeroBlock) ∧
    (∀ o n : Nat, (fun _ n : Nat => (n : Int)) o n ≤ (n : Int)) ∧
    (DVDCopyBlocksFillGaps (fun _ => zeroBlock) (fun _ n => (n : Int))
        (fun _ => 0) .GAP_STRATEGY_FORWARD (List.replicate 2048 1) 0 1
        .STRATEGY_ABORT).file[0]? = (List.replicate 2048 (1 : Nat))[0]? := by
  have hd : DiscWF (fun _ => zeroBlock) := fun b => by
    rw [zeroBlock, List.length_replicate]
  have hg : ∀ o n : Nat, (fun _ n : Nat => (n : Int)) o n ≤ (n : Int) :=
    fun o n => le_refl _
  refine ⟨hd, hg, ?_⟩
  refine (C10_fillgaps_frame (fun _ => zeroBlock) (fun _ n => (n : Int))
      (fun _ => 0) .GAP_STRATEGY_FORWARD (List.replicate 2048 1) 0 1
      .STRATEGY_ABORT hd hg).2 0 ?_ ?_
  · rw [List.length_replicate]
    omega
  · left
    constructor
    · rw [fillgaps_existing_eq, List.length_replicate, DVD_VIDEO_LB_LEN]
      norm_num
    · rw [Nat.zero_div]
      exact eval_blockBlank_ones

theorem found_chapter_scan_none (candidate titles : Nat)
    (chap : Nat → Nat) (i : Nat)
    (h : ∀ k, i ≤ k → k < titles → k < 4 → candidate ≠ chap k) :
    found_chapter_scan candidate titles chap i = none := by
  rw [found_chapter_scan.eq_def]
  split
  · rename_i hc
    rw [if_neg (h i le_rfl hc.1 hc.2)]
    exact found_chapter_scan_none candidate titles chap (i + 1)
      (fun k hk h1 h2 => h k (by omega) h1 h2)
  · rfl
termination_by 4 - i
decreasing_by rename_i hc _; omega

theorem found_chapter_scan_some (candidate titles : Nat)
    (chap : Nat → Nat) (i j : Nat) (hij : i ≤ j) (hjt : j < titles)
    (hj4 : j < 4) (heq : candidate = chap j)
    (hmin : ∀ k, i ≤ k → k < j → candidate ≠ chap k) :
    found_chapter_scan candidate titles chap i = some (j + 1) := by
  rw [found_chapter_scan.eq_def]
  rw [dif_pos (show i < titles ∧ i < 4 by omega)]
  by_cases hi : candidate = chap i
  · have hij' : i = j := by
      by_contra hne
      exact hmin i le_rfl (by omega) hi
    rw [if_pos hi, hij']
  · have hlt : i < j := by
      rcases Nat.lt_or_ge i j with h | h
      · exact h
      · have hij2 : i = j := by omega
        rw [hij2] at hi
        exact absurd heq hi
    rw [if_neg hi]
    exact found_chapter_scan_some candidate titles chap (i + 1) j
      (by omega) hjt hj4 heq (fun k hk1 hk2 => hmin k (by omega) hk2)
termination_by 4 - i
decreasing_by omega

/-- **C8** (counterexample). In the fall-through re-test, a candidate that
does not appear among the top chapter entries yields `found_chapter = 5`,
not 6 as claimed: the re-test loop is seeded with 5 (line 1778), unlike
the first decision's 6 (line 1711). -/
theorem C8_counterexample :
    (∀ k, k < 1 → (1 : Nat) ≠ (fun _ => (2 : Nat)) k) ∧
    DVDGetInfo_found_chapter_retest 1 1 (fun _ => 2) = 5 ∧
    DVDGetInfo_found_chapter_retest 1 1 (fun _ => 2) ≠ 6 := by
  have hs := found_chapter_scan_none 1 1 (fun _ => 2) 0
    (fun k h1 h2 h3 hx => by simp at hx)
  refine ⟨fun k hk hx => by simp at hx, ?_, ?_⟩
  · rw [DVDGetInfo_found_chapter_retest, hs]
    rfl
  · rw [DVDGetInfo_found_chapter_retest, hs]
    decide

/-- **C8** (amended). Both `found_chapter` computations yield the
candidate's 1-based position among the top `min titles 4` chapter
entries when it appears there; when it does not, the first decision
yields 6 while the fall-through re-test yields 5. -/
theorem C8_found_chapter (candidate titles : Nat) (chap : Nat → Nat) :
    (∀ j, j < titles → j < 4 → candidate = chap j →
      (∀ k, k < j → candidate ≠ chap k) →
      DVDGetInfo_found_chapter candidate titles chap = j + 1 ∧
      DVDGetInfo_found_chapter_retest candidate titles chap = j + 1) ∧
    ((∀ k, k < titles → k < 4 → candidate ≠ chap k) →
      DVDGetInfo_found_chapter candidate titles chap = 6 ∧
      DVDGetInfo_found_chapter_retest candidate titles chap = 5) := by
  constructor
  · intro j h1 h2 h3 h4
    have hs := found_chapter_scan_some candidate titles chap 0 j
      (Nat.zero_le _) h1 h2 h3 (fun k _ hk => h4 k hk)
    rw [DVDGetInfo_found_chapter, DVDGetInfo_found_chapter_retest, hs]
    exact ⟨rfl, rfl⟩
  · intro h
    have hs := found_chapter_scan_none candidate titles chap 0
      (fun k _ h1 h2 => h k h1 h2)
    rw [DVDGetInfo_found_chapter, DVDGetInfo_found_chapter_retest, hs]
    exact ⟨rfl, rfl⟩

theorem C8_witness :
    ((1 : Nat) < 2) ∧ ((1 : Nat) < 4) ∧
    ((1 : Nat) = (fun i : Nat => i) 1) ∧
    (∀ k, k < 1 → (1 : Nat) ≠ (fun i : Nat => i) k) ∧
    (DVDGetInfo_found_chapter 1 2 (fun i => i) = 2 ∧
      DVDGetInfo_found_chapter_retest 1 2 (fun i => i) = 2) := by
  have hmin : ∀ k, k < 1 → (1 : Nat) ≠ (fun i : Nat => i) k :=
    fun k hk h => by
      rw [show (fun i : Nat => i) k = k from rfl] at h
      omega
  exact ⟨by omega, by omega, rfl, hmin,
    (C8_found_chapter 1 2 (fun i => i)).1 1 (by omega) (by omega) rfl
      hmin⟩

/-- The chunk cap keeps the current file at or below `MAX_VOB_SIZE`. -/
theorem DVDWriteCells_chunk_le (left size : Nat)
    (hsz : size ≤ MAX_VOB_SIZE) :
    size + DVDWriteCells_chunk left size ≤ MAX_VOB_SIZE ∨
      (DVDWriteCells_chunk left size ≤ left ∧
        left + size ≤ MAX_VOB_SIZE) := by
  unfold DVDWriteCells_chunk
  unfold BUFFER_SIZE MAX_VOB_SIZE at *
  by_cases hc : left + size > 524288
  · simp only [if_pos hc]
    split
    · left
      omega
    · left
      omega
  · simp only [if_neg hc]
    split
    · right
      omega
    · right
      omega

/-- Invariant of the inner cell loop: file sizes never pass
`MAX_VOB_SIZE`, every newly finalized file is exactly `MAX_VOB_SIZE`
blocks, and the part index advances exactly once per finalized file. -/
theorem DVDWriteCells_cell_inv (got : Nat → Nat → Int)
    (hgot : ∀ o n, got o n ≤ (n : Int)) (soffset left : Nat)
    (st : WriteCellsSt) (hsz : st.size ≤ MAX_VOB_SIZE) :
    (DVDWriteCells_cell got soffset left st).2.size ≤ MAX_VOB_SIZE ∧
    (∀ f ∈ (DVDWriteCells_cell got soffset left st).2.files,
      f ∈ st.files ∨ f = MAX_VOB_SIZE) ∧
    (DVDWriteCells_cell got soffset left st).2.vob = st.vob +
      ((DVDWriteCells_cell got soffset left st).2.files.length -
        st.files.length) ∧
    st.files.length ≤
      (DVDWriteCells_cell got soffset left st).2.files.length := by
  rw [DVDWriteCells_cell.eq_def]
  split
  · rename_i hl
    split
    · rename_i hr
      have hcap := DVDWriteCells_chunk_le left st.size hsz
      have htoN : (got soffset (DVDWriteCells_chunk left st.size)).toNat ≤
          DVDWriteCells_chunk left st.size := by
        have := hgot soffset (DVDWriteCells_chunk left st.size)
        omega
      have hsz' : st.size +
          (got soffset (DVDWriteCells_chunk left st.size)).toNat ≤
          MAX_VOB_SIZE := by omega
      split
      · rename_i hrot
        have ih := DVDWriteCells_cell_inv got hgot
          (soffset + (got soffset (DVDWriteCells_chunk left st.size)).toNat)
          (left - (got soffset (DVDWriteCells_chunk left st.size)).toNat)
          ⟨0, st.vob + 1, st.files ++
            [st.size +
              (got soffset (DVDWriteCells_chunk left st.size)).toNat]⟩
          (by simp)
        refine ⟨ih.1, ?_, ?_, ?_⟩
        · intro f hf
          rcases ih.2.1 f hf with hmem | hmax
          · rcases List.mem_append.mp hmem with h | h
            · exact Or.inl h
            · have hfeq : f = st.size +
                  (got soffset (DVDWriteCells_chunk left st.size)).toNat :=
                by simpa using h
              right
              omega
          · exact Or.inr hmax
        · have h1 := ih.2.2.1
          have h2 := ih.2.2.2
          simp only [List.length_append, List.length_singleton] at h1 h2 ⊢
          omega
        · have h2 := ih.2.2.2
          simp only [List.length_append, List.length_singleton] at h2 ⊢
          omega
      · rename_i hrot
        exact DVDWriteCells_cell_inv got hgot
          (soffset + (got soffset (DVDWriteCells_chunk left st.size)).toNat)
          (left - (got soffset (DVDWriteCells_chunk left st.size)).toNat)
          ⟨st.size + (got soffset (DVDWriteCells_chunk left st.size)).toNat,
            st.vob, st.files⟩
          (by simpa using hsz')
    · exact ⟨hsz, fun f hf => Or.inl hf, by simp, le_rfl⟩
  · exact ⟨hsz, fun f hf => Or.inl hf, by simp, le_rfl⟩
termination_by left
decreasing_by
  · omega
  · omega

/-- Invariant of the cell loop: the current size stays capped and every
finalized file is a previously finalized one or exactly `MAX_VOB_SIZE`
blocks. -/
theorem DVDWriteCells_cells_inv (got : Nat → Nat → Int)
    (hgot : ∀ o n, got o n ≤ (n : Int)) :
    ∀ (cells : List (Nat × Nat)) (st : WriteCellsSt),
      st.size ≤ MAX_VOB_SIZE →
      (DVDWriteCells_cells got cells st).2.size ≤ MAX_VOB_SIZE ∧
      ∀ f ∈ (DVDWriteCells_cells got cells st).2.files,
        f ∈ st.files ∨ f = MAX_VOB_SIZE
  | [], st, hsz => ⟨hsz, fun f hf => Or.inl hf⟩
  | c :: rest, st, hsz => by
      rw [DVDWriteCells_cells]
      have hcell := DVDWriteCells_cell_inv got hgot c.1 (c.2 - c.1) st hsz
      split
      · rename_i st' hres
        rw [hres] at hcell
        have ih := DVDWriteCells_cells_inv got hgot rest st' hcell.1
        refine ⟨ih.1, fun f hf => ?_⟩
        rcases ih.2 f hf with h | h
        · exact hcell.2.1 f h
        · exact Or.inr h
      · rename_i r st' hr hres
        rw [hres] at hcell
        exact ⟨hcell.1, hcell.2.1⟩

/-- **C6.** Every output file of `DVDWriteCells` is at most
`MAX_VOB_SIZE` blocks — 1,073,741,824 bytes — every file finalized before
the last was rotated exactly at the cap, and the cap is 1 GiB. -/
theorem C6_vob_size_cap (got : Nat → Nat → Int)
    (cells : List (Nat × Nat)) (hgot : ∀ o n, got o n ≤ (n : Int)) :
    (∀ f ∈ (DVDWriteCells got cells).2.files,
      f * DVD_VIDEO_LB_LEN ≤ 1073741824) ∧
    (∀ f ∈ (DVDWriteCells got cells).2.files.dropLast,
      f = MAX_VOB_SIZE) ∧
    MAX_VOB_SIZE * DVD_VIDEO_LB_LEN = 1073741824 := by
  have hmul : MAX_VOB_SIZE * DVD_VIDEO_LB_LEN = 1073741824 := by
    rw [MAX_VOB_SIZE, DVD_VIDEO_LB_LEN]
  have hinv := DVDWriteCells_cells_inv got hgot cells ⟨0, 1, []⟩
    (Nat.zero_le _)
  have hmax : ∀ f ∈ (DVDWriteCells_cells got cells ⟨0, 1, []⟩).2.files,
      f = MAX_VOB_SIZE := by
    intro f hf
    rcases hinv.2 f hf with h | h
    · exact absurd h (List.not_mem_nil f)
    · exact h
  unfold DVDWriteCells
  split
  · rename_i st' hres
    rw [hres] at hinv hmax
    refine ⟨?_, ?_, hmul⟩
    · intro f hf
      rcases List.mem_append.mp hf with h | h
      · rw [hmax f h, hmul]
      · have hfeq : f = st'.size := by simpa using h
        rw [hfeq, ← hmul]
        exact Nat.mul_le_mul_right _ hinv.1
    · intro f hf
      rw [List.dropLast_concat] at hf
      exact hmax f hf
  · rename_i r st' hr hres
    rw [hres] at hinv hmax
    refine ⟨?_, ?_, hmul⟩
    · intro f hf
      rw [hmax f hf, hmul]
    · intro f hf
      exact hmax f ((List.dropLast_sublist _).mem hf)

theorem C6_witness :
    (∀ o n : Nat, (fun _ n : Nat => (n : Int)) o n ≤ (n : Int)) ∧
    ((∀ f ∈ (DVDWriteCells (fun _ n => (n : Int)) []).2.files,
        f * DVD_VIDEO_LB_LEN ≤ 1073741824) ∧
      (∀ f ∈ (DVDWriteCells (fun _ n => (n : Int)) []).2.files.dropLast,
        f = MAX_VOB_SIZE) ∧
      MAX_VOB_SIZE * DVD_VIDEO_LB_LEN = 1073741824) :=
  ⟨fun o n => le_refl _,
    C6_vob_size_cap (fun _ n => (n : Int)) [] (fun o n => le_refl _)⟩

/-- Under SKIP_MULTIBLOCK the copy loop always completes with result 0
when reads never over-deliver. -/
theorem DVDCopyBlocks_loop_result (disc : Nat → Block)
    (got : Nat → Nat → Int) (hgot : ∀ o n, got o n ≤ (n : Int)) :
    ∀ (remaining offset to_read : Nat) (out : List Nat), 0 < to_read →
      (DVDCopyBlocks_loop disc got .STRATEGY_SKIP_MULTIBLOCK offset
        remaining to_read out).1 = 0 := by
  intro remaining
  induction remaining using Nat.strong_induction_on with
  | _ remaining ih =>
      intro offset to_read out htr
      rw [DVDCopyBlocks_loop.eq_def]
      split
      · rename_i hrem
        rw [dif_pos (show 0 < min to_read remaining by omega)]
        have hg := hgot offset (min to_read remaining)
        split
        · rename_i hae
          exact ih _ (by omega) _ _ _ (by omega)
        · rename_i hae
          exact ih _ (by omega) _ _ _ (by omega)
      · rfl

/-- **C1.** Under SKIP_MULTIBLOCK, a short read of `got` blocks out of an
effective request of `to_read` blocks (negative returns reading 0 blocks)
appends the blocks read followed by exactly `to_read - got` zero-filled
2048-byte blocks, advances by the full `to_read` blocks, and the copy
completes with result 0 (e.g. 17 of 512 yields 17 data blocks then 495
zero blocks). -/
theorem C1_skip_multiblock (disc : Nat → Block) (got : Nat → Nat → Int)
    (offset remaining to_read : Nat) (out : List Nat)
    (hgot : ∀ o n, got o n ≤ (n : Int)) (htr : 0 < to_read)
    (hrem : 0 < remaining)
    (hshort : got offset (min to_read remaining) <
      ((min to_read remaining : Nat) : Int)) :
    DVDCopyBlocks_loop disc got .STRATEGY_SKIP_MULTIBLOCK offset remaining
        to_read out =
      DVDCopyBlocks_loop disc got .STRATEGY_SKIP_MULTIBLOCK
        (offset + min to_read remaining)
        (remaining - min to_read remaining) (min to_read remaining)
        (out ++ readData disc offset
            (got offset (min to_read remaining)).toNat ++
          List.flatten (List.replicate
            (min to_read remaining -
              (got offset (min to_read remaining)).toNat) zeroBlock)) ∧
    (DVDCopyBlocks_loop disc got .STRATEGY_SKIP_MULTIBLOCK offset
      remaining to_read out).1 = 0 := by
  have hg := hgot offset (min to_read remaining)
  have hmin : 0 < min to_read remaining := by omega
  have hne : ¬ got offset (min to_read remaining) =
      ((min to_read remaining : Nat) : Int) := by omega
  constructor
  · have e1 : offset + min to_read remaining =
        offset + (got offset (min to_read remaining)).toNat +
          (min to_read remaining -
            (got offset (min to_read remaining)).toNat) := by omega
    have e2 : remaining - min to_read remaining =
        remaining - (got offset (min to_read remaining)).toNat -
          (min to_read remaining -
            (got offset (min to_read remaining)).toNat) := by omega
    rw [e1, e2]
    conv_lhs => rw [DVDCopyBlocks_loop.eq_def]
    rw [dif_pos hrem, dif_pos hmin, dif_neg hne]
  · exact DVDCopyBlocks_loop_result disc got hgot remaining offset to_read
      out htr

theorem C1_witness :
    (∀ o n : Nat,
      (fun _ n : Nat => ((min 17 n : Nat) : Int)) o n ≤ (n : Int)) ∧
    (0 : Nat) < 512 ∧ (0 : Nat) < 512 ∧
    ((fun _ n : Nat => ((min 17 n : Nat) : Int)) 0 (min 512 512) <
      ((min 512 512 : Nat) : Int)) ∧
    (DVDCopyBlocks_loop (fun _ => zeroBlock)
        (fun _ n => ((min 17 n : Nat) : Int)) .STRATEGY_SKIP_MULTIBLOCK 0
        512 512 []).1 = 0 := by
  have hg : ∀ o n : Nat,
      (fun _ n : Nat => ((min 17 n : Nat) : Int)) o n ≤ (n : Int) :=
    fun o n => by
      simp only []
      omega
  refine ⟨hg, by omega, by omega, by norm_num, ?_⟩
  exact (C1_skip_multiblock (fun _ => zeroBlock)
      (fun _ n => ((min 17 n : Nat) : Int)) 0 512 512 [] hg (by omega)
      (by omega) (by norm_num)).2

theorem cellAt_set_self {l : List (Int × Int)} {k : Nat}
    (x : Int × Int) (hk : k < l.length) : cellAt (l.set k x) k = x := by
  unfold cellAt
  rw [List.getD_eq_getElem?_getD, List.getElem?_set_self
    (by simpa using hk)]
  rfl

theorem cellAt_set_ne {l : List (Int × Int)} {k m : Nat}
    (x : Int × Int) (h : k ≠ m) : cellAt (l.set k x) m = cellAt l m := by
  unfold cellAt
  rw [List.getD_eq_getElem?_getD, List.getElem?_set_ne h,
    List.getD_eq_getElem?_getD]

theorem length_bsort_swap (l : List (Int × Int)) (i j : Nat) :
    (bsort_swap l i j).length = l.length := by
  unfold bsort_swap
  split <;> simp

/-- What one comparison does to the two entries and to the rest. -/
theorem bsort_swap_spec (l : List (Int × Int)) (i j : Nat)
    (hi : i < l.length) (hj : j < l.length) :
    ((cellAt l i).1 < (cellAt l j).1 →
      cellAt (bsort_swap l i j) i = cellAt l j ∧
      cellAt (bsort_swap l i j) j = cellAt l i ∧
      ∀ k, k ≠ i → k ≠ j → cellAt (bsort_swap l i j) k = cellAt l k) ∧
    (¬ (cellAt l i).1 < (cellAt l j).1 → bsort_swap l i j = l) := by
  constructor
  · intro hlt
    have hij : i ≠ j := fun h => by
      rw [h] at hlt
      exact lt_irrefl _ hlt
    unfold bsort_swap
    rw [if_pos hlt]
    refine ⟨?_, ?_, ?_⟩
    · rw [cellAt_set_ne _ (fun h => hij h.symm), cellAt_set_self _ hi]
    · rw [cellAt_set_self _ (by simpa using hj)]
    · intro k hki hkj
      rw [cellAt_set_ne _ (fun h => hkj h.symm),
        cellAt_set_ne _ (fun h => hki h.symm)]
  · intro hge
    unfold bsort_swap
    rw [if_neg hge]

theorem length_bsort_inner (size i : Nat) :
    ∀ (n j : Nat) (l : List (Int × Int)), size - j ≤ n →
      (bsort_inner size i l j).length = l.length := by
  intro n
  induction n with
  | zero =>
      intro j l hn
      rw [bsort_inner.eq_def, if_neg (by omega)]
  | succ n ih =>
      intro j l hn
      rw [bsort_inner.eq_def]
      split
      · rw [ih (j + 1) _ (by omega), length_bsort_swap]
      · rfl

theorem length_bsort_outer (size : Nat) :
    ∀ (n i : Nat) (l : List (Int × Int)), size - i ≤ n →
      (bsort_outer size l i).length = l.length := by
  intro n
  induction n with
  | zero =>
      intro i l hn
      rw [bsort_outer.eq_def, if_neg (by omega)]
  | succ n ih =>
      intro i l hn
      rw [bsort_outer.eq_def]
      split
      · rw [ih (i + 1) _ (by omega), length_bsort_inner size i (size - 0)
          0 l (by omega)]
      · rfl

theorem length_bsort_min_to_max (l : List (Int × Int)) :
    (bsort_min_to_max l).length = l.length := by
  unfold bsort_min_to_max
  exact length_bsort_outer l.length l.length 0 l (by omega)

theorem length_align_step (l : List (Int × Int)) (i : Nat) :
    (align_step l i).length = l.length := by
  unfold align_step
  split <;> simp

theorem length_align_loop (size : Nat) :
    ∀ (n i : Nat) (l : List (Int × Int)), size - i ≤ n →
      (align_loop size l i).length = l.length := by
  intro n
  induction n with
  | zero =>
      intro i l hn
      rw [align_loop.eq_def, if_neg (by omega)]
  | succ n ih =>
      intro i l hn
      rw [align_loop.eq_def]
      split
      · rw [ih (i + 1) _ (by omega), length_align_step]
      · rfl

theorem length_align_end_sector (l : List (Int × Int)) :
    (align_end_sector l).length = l.length := by
  unfold align_end_sector
  exact length_align_loop l.length l.length 0 l (by omega)

/-- After an inner pass, the pass element holds the maximum of the
array. -/
theorem bsort_inner_ge (size i : Nat) (hi : i < size) :
    ∀ (n j : Nat) (l : List (Int × Int)), size - j ≤ n →
      size = l.length →
      (∀ k, k < j → (cellAt l k).1 ≤ (cellAt l i).1) →
      ∀ k, k < size →
        (cellAt (bsort_inner size i l j) k).1 ≤
          (cellAt (bsort_inner size i l j) i).1 := by
  intro n
  induction n with
  | zero =>
      intro j l hn hsz hinv k hk
      rw [bsort_inner.eq_def, if_neg (by omega)]
      exact hinv k (by omega)
  | succ n ih =>
      intro j l hn hsz hinv k hk
      rw [bsort_inner.eq_def]
      split
      · rename_i hj
        have hil : i < l.length := by omega
        have hjl : j < l.length := by omega
        have hspec := bsort_swap_spec l i j hil hjl
        by_cases hlt : (cellAt l i).1 < (cellAt l j).1
        · obtain ⟨hsi, hsj, hsk⟩ := hspec.1 hlt
          refine ih (j + 1) _ (by omega)
            (by rw [length_bsort_swap]; exact hsz) ?_ k hk
          intro q hq
          rcases Nat.lt_or_ge q j with h | h
          · rcases eq_or_ne q i with hqi | hqi
            · rw [hqi]
            · rw [hsi, hsk q hqi (by omega)]
              calc (cellAt l q).1 ≤ (cellAt l i).1 := hinv q h
                _ ≤ (cellAt l j).1 := le_of_lt hlt
          · have hqj : q = j := by omega
            rw [hqj, hsi, hsj]
            exact le_of_lt hlt
        · rw [hspec.2 hlt]
          refine ih (j + 1) l (by omega) hsz ?_ k hk
          intro q hq
          rcases Nat.lt_or_ge q j with h | h
          · exact hinv q h
          · have hqj : q = j := by omega
            rw [hqj]
            exact le_of_not_lt hlt
      · exact hinv k (by omega)

/-- An inner pass whose element already dominates the array is the
identity. -/
theorem bsort_inner_nochange (size i : Nat) :
    ∀ (n j : Nat) (l : List (Int × Int)), size - j ≤ n →
      (∀ k, k < size → (cellAt l k).1 ≤ (cellAt l i).1) →
      bsort_inner size i l j = l := by
  intro n
  induction n with
  | zero =>
      intro j l hn _
      rw [bsort_inner.eq_def, if_neg (by omega)]
  | succ n ih =>
      intro j l hn hmax
      rw [bsort_inner.eq_def]
      split
      · rename_i hj
        have hns : bsort_swap l i j = l := by
          unfold bsort_swap
          rw [if_neg (by have := hmax j hj; omega)]
        rw [hns]
        exact ih (j + 1) l (by omega) hmax
      · rfl

/-- The inner pass of `bsort_min_to_max` for `0 < i`, started on a sorted
prefix `[0, i)` whose last element dominates the array, sorts the prefix
`[0, i]` and leaves the maximum at `i`. -/
theorem bsort_inner_sorted (size i : Nat) (hi0 : 0 < i) (hi : i < size) :
    ∀ (n j : Nat) (l : List (Int × Int)), i - j ≤ n → j ≤ i →
      size = l.length →
      SortedLE l i →
      (∀ k, k < j → (cellAt l k).1 ≤ (cellAt l i).1) →
      (∀ k, k < size → (cellAt l k).1 ≤
        max ((cellAt l (i - 1)).1) ((cellAt l i).1)) →
      SortedLE (bsort_inner size i l j) (i + 1) ∧
      ∀ k, k < size →
        (cellAt (bsort_inner size i l j) k).1 ≤
          (cellAt (bsort_inner size i l j) i).1 := by
  intro n
  induction n with
  | zero =>
      intro j l hn hji hsz hsort hproc hmax
      have hj : j = i := by omega
      have hall : ∀ k, k < size → (cellAt l k).1 ≤ (cellAt l i).1 := by
        intro k hk
        have h1 := hmax k hk
        have h2 := hproc (i - 1) (by omega)
        rw [max_eq_right h2] at h1
        exact h1
      have hnc := bsort_inner_nochange size i (size - j) j l (by omega)
        hall
      rw [hnc]
      refine ⟨?_, hall⟩
      intro p q hpq hq
      rcases Nat.lt_or_ge q i with h | h
      · exact hsort p q hpq h
      · have hqi : q = i := by omega
        subst hqi
        exact hall p (by omega)
  | succ n ih =>
      intro j l hn hji hsz hsort hproc hmax
      rcases Nat.lt_or_ge j i with hj | hj
      · rw [bsort_inner.eq_def, if_pos (by omega)]
        have hil : i < l.length := by omega
        have hjl : j < l.length := by omega
        have hspec := bsort_swap_spec l i j hil hjl
        by_cases hlt : (cellAt l i).1 < (cellAt l j).1
        · obtain ⟨hsi, hsj, hsk⟩ := hspec.1 hlt
          refine ih (j + 1) (bsort_swap l i j) (by omega) (by omega)
            (by rw [length_bsort_swap]; exact hsz) ?_ ?_ ?_
          · intro p q hpq hq
            have hpi : p ≠ i := by omega
            have hqi : q ≠ i := by omega
            by_cases hqj : q = j
            · subst hqj
              by_cases hpj : p = q
              · rw [hpj]
              · rw [hsj, hsk p hpi hpj]
                exact hproc p (by omega)
            · by_cases hpj : p = j
              · subst hpj
                rw [hsj, hsk q hqi hqj]
                have h1 : (cellAt l p).1 ≤ (cellAt l q).1 :=
                  hsort p q (by omega) hq
                omega
              · rw [hsk p hpi hpj, hsk q hqi hqj]
                exact hsort p q hpq hq
          · intro k hk
            rw [hsi]
            by_cases hkj : k = j
            · subst hkj
              rw [hsj]
              exact le_of_lt hlt
            · have hki : k ≠ i := by omega
              rw [hsk k hki hkj]
              exact hsort k j (by omega) (by omega)
          · intro k hk
            by_cases hjpred : j = i - 1
            · subst hjpred
              rw [hsi, hsj]
              by_cases hki : k = i
              · subst hki
                rw [hsi]
                exact le_max_right _ _
              · by_cases hkj : k = i - 1
                · subst hkj
                  rw [hsj]
                  exact le_max_left _ _
                · rw [hsk k hki hkj]
                  exact (hmax k hk).trans_eq (max_comm _ _)
            · have hj1 : (i - 1) ≠ i := by omega
              have hj2 : (i - 1) ≠ j := by omega
              rw [hsk (i - 1) hj1 hj2, hsi]
              have hji1 : (cellAt l j).1 ≤ (cellAt l (i - 1)).1 :=
                hsort j (i - 1) (by omega) (by omega)
              by_cases hki : k = i
              · subst hki
                rw [hsi]
                exact le_max_right _ _
              · by_cases hkj : k = j
                · subst hkj
                  rw [hsj]
                  exact le_max_of_le_left
                    (le_trans (le_of_lt hlt) hji1)
                · rw [hsk k hki hkj]
                  have h1 := hmax k hk
                  rw [max_eq_left
                    (le_of_lt (lt_of_lt_of_le hlt hji1))] at h1
                  exact le_max_of_le_left h1
        · rw [hspec.2 hlt]
          refine ih (j + 1) l (by omega) (by omega) hsz hsort ?_ hmax
          intro k hk
          by_cases hkj : k = j
          · subst hkj
            exact le_of_not_lt hlt
          · exact hproc k (by omega)
      · have hj' : j = i := by omega
        have hall : ∀ k, k < size → (cellAt l k).1 ≤ (cellAt l i).1 := by
          intro k hk
          have h1 := hmax k hk
          have h2 := hproc (i - 1) (by omega)
          rw [max_eq_right h2] at h1
          exact h1
        have hnc := bsort_inner_nochange size i (size - j) j l (by omega)
          hall
        rw [hnc]
        refine ⟨?_, hall⟩
        intro p q hpq hq
        rcases Nat.lt_or_ge q i with h | h
        · exact hsort p q hpq h
        · have hqi : q = i := by omega
          subst hqi
          exact hall p (by omega)

/-- The outer loop of `bsort_min_to_max` sorts the whole array (by sector
start). -/
theorem bsort_outer_sorted (size : Nat) :
    ∀ (n i : Nat) (l : List (Int × Int)), size - i ≤ n →
      size = l.length →
      (0 < i → SortedLE l i ∧
        ∀ k, k < size → (cellAt l k).1 ≤ (cellAt l (i - 1)).1) →
      SortedLE (bsort_outer size l i) size := by
  intro n
  induction n with
  | zero =>
      intro i l hn hsz hpre
      rw [bsort_outer.eq_def, if_neg (by omega)]
      intro p q hpq hq
      rcases Nat.eq_zero_or_pos i with hi0 | hi0
      · exact absurd hq (by omega)
      · exact (hpre hi0).1 p q hpq (by omega)
  | succ n ih =>
      intro i l hn hsz hpre
      rw [bsort_outer.eq_def]
      split
      · rename_i hi
        rcases Nat.eq_zero_or_pos i with hi0 | hi0
        · subst hi0
          have hge := bsort_inner_ge size 0 hi (size - 0) 0 l (by omega)
            hsz (fun k hk => absurd hk (by omega))
          refine ih 1 _ (by omega)
            (by rw [length_bsort_inner size 0 (size - 0) 0 l (by omega)]
                exact hsz) ?_
          intro _
          constructor
          · intro p q hpq hq
            have hpq' : p = q := by omega
            rw [hpq']
          · simpa using hge
        · have hpre' := hpre hi0
          have hc : ∀ k, k < size → (cellAt l k).1 ≤
              max ((cellAt l (i - 1)).1) ((cellAt l i).1) :=
            fun k hk => le_max_of_le_left (hpre'.2 k hk)
          have hs := bsort_inner_sorted size i hi0 hi (i - 0) 0 l
            (by omega) (by omega) hsz hpre'.1
            (fun k hk => absurd hk (by omega)) hc
          refine ih (i + 1) _ (by omega)
            (by rw [length_bsort_inner size i (size - 0) 0 l (by omega)]
                exact hsz) ?_
          intro _
          exact ⟨hs.1, by simpa using hs.2⟩
      · rename_i hi
        intro p q hpq hq
        rcases Nat.eq_zero_or_pos i with hi0 | hi0
        · exact absurd hq (by omega)
        · exact (hpre hi0).1 p q hpq (by omega)

/-- `bsort_min_to_max` leaves the sector starts in non-decreasing
order. -/
theorem bsort_min_to_max_sorted (l : List (Int × Int)) :
    SortedLE (bsort_min_to_max l) l.length := by
  unfold bsort_min_to_max
  exact bsort_outer_sorted l.length l.length 0 l (by omega) rfl
    (fun h => absurd h (lt_irrefl 0))

theorem align_step_fst (l : List (Int × Int)) (i : Nat)
    (hil : i < l.length) (k : Nat) :
    (cellAt (align_step l i) k).1 = (cellAt l k).1 := by
  unfold align_step
  split
  · by_cases hk : k = i
    · subst hk
      rw [cellAt_set_self _ hil]
    · rw [cellAt_set_ne _ (fun h => hk h.symm)]
  · rfl

theorem align_step_snd_ne (l : List (Int × Int)) (i k : Nat)
    (h : i ≠ k) :
    (cellAt (align_step l i) k).2 = (cellAt l k).2 := by
  unfold align_step
  split
  · rw [cellAt_set_ne _ h]
  · rfl

/-- After `align_step` at `i`, the pair `(i, i + 1)` is strictly
separated. -/
theorem align_step_adj (l : List (Int × Int)) (i : Nat)
    (hil : i < l.length) :
    (cellAt (align_step l i) i).2 < (cellAt (align_step l i) (i + 1)).1 :=
  by
  have hne : i ≠ i + 1 := by omega
  unfold align_step
  split
  · rename_i hcond
    rw [cellAt_set_self _ hil, cellAt_set_ne _ hne]
    show (cellAt l (i + 1)).1 - 1 < (cellAt l (i + 1)).1
    omega
  · rename_i hcond
    omega

theorem align_loop_fst (size : Nat) :
    ∀ (n i : Nat) (l : List (Int × Int)), size - i ≤ n →
      size = l.length → ∀ k,
      (cellAt (align_loop size l i) k).1 = (cellAt l k).1 := by
  intro n
  induction n with
  | zero =>
      intro i l hn hsz k
      rw [align_loop.eq_def, if_neg (by omega)]
  | succ n ih =>
      intro i l hn hsz k
      rw [align_loop.eq_def]
      split
      · rename_i hi
        rw [ih (i + 1) _ (by omega)
            (by rw [length_align_step]; exact hsz) k,
          align_step_fst l i (by omega) k]
      · rfl

theorem align_loop_adj (size : Nat) :
    ∀ (n i : Nat) (l : List (Int × Int)), size - i ≤ n →
      size = l.length →
      (∀ q, q < i → q + 1 < size →
        (cellAt l q).2 < (cellAt l (q + 1)).1) →
      ∀ q, q + 1 < size →
        (cellAt (align_loop size l i) q).2 <
          (cellAt (align_loop size l i) (q + 1)).1 := by
  intro n
  induction n with
  | zero =>
      intro i l hn hsz hprev q hq
      rw [align_loop.eq_def, if_neg (by omega)]
      exact hprev q (by omega) hq
  | succ n ih =>
      intro i l hn hsz hprev q hq
      rw [align_loop.eq_def]
      split
      · rename_i hi
        refine ih (i + 1) (align_step l i) (by omega)
          (by rw [length_align_step]; exact hsz) ?_ q hq
        intro q' hq' hq1
        by_cases hqi : q' = i
        · subst hqi
          exact align_step_adj l q' (by omega)
        · rw [align_step_snd_ne l i q' (fun h => hqi h.symm),
            align_step_fst l i (by omega) (q' + 1)]
          exact hprev q' (by omega) hq1
      · exact hprev q (by omega) hq

theorem align_end_sector_adj (l : List (Int × Int)) (q : Nat)
    (hq : q + 1 < l.length) :
    (cellAt (align_end_sector l) q).2 <
      (cellAt (align_end_sector l) (q + 1)).1 := by
  unfold align_end_sector
  exact align_loop_adj l.length l.length 0 l (by omega) rfl
    (fun q' hq' _ => absurd hq' (by omega)) q hq

theorem align_end_sector_fst (l : List (Int × Int)) (k : Nat) :
    (cellAt (align_end_sector l) k).1 = (cellAt l k).1 := by
  unfold align_end_sector
  exact align_loop_fst l.length l.length 0 l (by omega) rfl k

/-- **C7.** After sorting the cell ranges by start sector and aligning
end sectors, the ranges are pairwise disjoint: for all `i < j`,
`end[i] < start[j]`. -/
theorem C7_cells_disjoint (l : List (Int × Int)) :
    ∀ i j : Nat, i < j →
      j < (align_end_sector (bsort_min_to_max l)).length →
      (cellAt (align_end_sector (bsort_min_to_max l)) i).2 <
        (cellAt (align_end_sector (bsort_min_to_max l)) j).1 := by
  intro i j hij hj
  have hlen : (align_end_sector (bsort_min_to_max l)).length =
      l.length := by
    rw [length_align_end_sector, length_bsort_min_to_max]
  have hsorted := bsort_min_to_max_sorted l
  have hadj := align_end_sector_adj (bsort_min_to_max l) i
    (by rw [length_bsort_min_to_max]; omega)
  have h1 : (cellAt (align_end_sector (bsort_min_to_max l)) (i + 1)).1 ≤
      (cellAt (align_end_sector (bsort_min_to_max l)) j).1 := by
    rw [align_end_sector_fst, align_end_sector_fst]
    exact hsorted (i + 1) j (by omega) (by omega)
  exact lt_of_lt_of_le hadj h1

theorem C7_witness :
    (0 : Nat) < 1 ∧
    1 < (align_end_sector (bsort_min_to_max
      [((0 : Int), (5 : Int)), (3, 4)])).length ∧
    (cellAt (align_end_sector (bsort_min_to_max
        [((0 : Int), (5 : Int)), (3, 4)])) 0).2 <
      (cellAt (align_end_sector (bsort_min_to_max
        [((0 : Int), (5 : Int)), (3, 4)])) 1).1 := by
  have hlen : 1 < (align_end_sector (bsort_min_to_max
      [((0 : Int), (5 : Int)), (3, 4)])).length := by
    rw [length_align_end_sector, length_bsort_min_to_max]
    norm_num
  exact ⟨by omega, hlen,
    C7_cells_disjoint [((0 : Int), (5 : Int)), (3, 4)] 0 1 (by omega)
      hlen⟩

end Dvdbackup
